import Mathlib

/-!
# Fontaine: the Maximal Rectangles bin packer (`source/maxrects.hpp`, `source/maxrects.cpp`)

A shallow embedding of `struct Rect` and `class Bin` together with the properties of
`Bin::layout_bulk` that the design document states.

Modelling conventions.

* A C++ `int` is an `Int`.  The only operations of the packer whose exact value can leave
  the 32-bit range while every rectangle stays inside a bin whose sides are `int`s are the
  area product `w * h` and the difference of two areas; both are wrapped explicitly with
  `wrap_int` (two's complement).  Sums and differences of coordinates of rectangles that lie
  inside the bin are exact.
* `char32_t` is a `Nat`; `static_cast<uint32>` is reduction modulo `2 ^ 32`.
* `std::list<Rect>` and `std::vector<Rect>` are `List Rect`; an iterator returned by a search is
  the element it points to, the end iterator is `none`.
* `m_new_free_rectangles` is empty whenever control is outside the body of the loop of
  `layout_bulk` (it is cleared at the end of every iteration, and both exits from the middle
  of the loop happen before anything is pushed), so it is a local value of `place` and not
  a field of the state.
* `Bin::layout_bulk` mutates its argument and may throw after having mutated a part of it; the
  model returns the container, the packer state and the message thrown (if any).
-/

namespace Fontaine

/-- The value `std::numeric_limits<int>::max()` for a 32-bit `int`. -/
def INT_MAX : Int := 2147483647

/-- The 32-bit `int` that a signed operation with exact value `n` leaves (two's complement). -/
def wrap_int (n : Int) : Int := (n + 2147483648) % 4294967296 - 2147483648

/-- The record `struct Rect`, with the default member initialisers of the header. -/
structure Rect where
  code_point : Nat := 0
  x : Int := 0
  y : Int := 0
  w : Int := 0
  h : Int := 0
  bin : Int := -1
deriving DecidableEq

/-- The member `Rect::area`: `return w * h;` in `int` arithmetic. -/
def Rect.area (r : Rect) : Int := wrap_int (r.w * r.h)

/-- The data members of `class Bin` that live across calls. -/
structure Bin where
  m_free_rectangles : List Rect
  m_processed_rectangles : Int
  m_width : Int
  m_height : Int
  m_multiple_bins : Bool
deriving DecidableEq

/-- The constructor `Bin::Bin`: initially the entire bin is free. -/
def Bin.new (width height : Int) (multiple_bins : Bool) : Bin :=
  { m_free_rectangles := [{ w := width, h := height }]
    m_processed_rectangles := 0
    m_width := width
    m_height := height
    m_multiple_bins := multiple_bins }

/-- The member `Bin::processed_rectangles`. -/
def Bin.processed_rectangles (b : Bin) : Int := b.m_processed_rectangles

/-- The member `Bin::reset`: the free list becomes the single full-bin rectangle. -/
def Bin.reset (b : Bin) : Bin :=
  { b with m_free_rectangles := [{ w := b.m_width, h := b.m_height }] }

/-- The member `Bin::fits`: does `b` fit in `a`? -/
def Bin.fits (a b : Rect) : Bool := decide (b.w ≤ a.w) && decide (b.h ≤ a.h)

/-- The member `Bin::overlaps`, on inclusive pixel extents. -/
def Bin.overlaps (a b : Rect) : Bool :=
  let x_overlap := decide (b.x ≤ a.x + (a.w - 1)) && decide (b.x + (b.w - 1) ≥ a.x)
  let y_overlap := decide (b.y ≤ a.y + (a.h - 1)) && decide (b.y + (b.h - 1) ≥ a.y)
  x_overlap && y_overlap

/-- The member `Bin::inside`: is `b` completely inside `a`? -/
def Bin.inside (a b : Rect) : Bool :=
  decide (b.x ≥ a.x) && decide (b.x + b.w ≤ a.x + a.w) &&
    decide (b.y ≥ a.y) && decide (b.y + b.h ≤ a.y + a.h)

/-- The loop of `Bin::find_best_free_rectangle` from a position of the free list onwards, with
the current values of `baf_score`, `bssf_score` and `iter_result`. -/
def Bin.find_best_loop (outsider : Rect) : List Rect → Int → Int → Option Rect → Option Rect
  | [], _, _, iter_result => iter_result
  | free_rect :: rest, baf_score, bssf_score, iter_result =>
    if Bin.fits free_rect outsider then
      let unused_area := wrap_int (free_rect.area - outsider.area)
      let unused_width := free_rect.w - outsider.w
      let unused_height := free_rect.h - outsider.h
      let most_used_dimension := min unused_width unused_height
      if unused_area < baf_score then
        Bin.find_best_loop outsider rest unused_area bssf_score (some free_rect)
      else if unused_area = baf_score ∧ most_used_dimension < bssf_score then
        Bin.find_best_loop outsider rest baf_score most_used_dimension (some free_rect)
      else
        Bin.find_best_loop outsider rest baf_score bssf_score iter_result
    else
      Bin.find_best_loop outsider rest baf_score bssf_score iter_result

/-- The member `Bin::find_best_free_rectangle`, on the free list it scans. -/
def Bin.find_best_free_rectangle (free_rectangles : List Rect) (outsider : Rect) : Option Rect :=
  Bin.find_best_loop outsider free_rectangles INT_MAX INT_MAX none

/-- The guard "do not allow degenerate rectangles" followed by the `push_back`. -/
def Bin.push_non_degenerate (new_free_rectangle : Rect) : List Rect :=
  if new_free_rectangle.w > 0 ∧ new_free_rectangle.h > 0 then [new_free_rectangle] else []

/-- The member `Bin::compute_new_free_rectangles`: the rectangles it appends to
`m_new_free_rectangles`, in the order of the `push_back` calls. -/
def Bin.compute_new_free_rectangles (free_rect inserted_rect : Rect) : List Rect :=
  (if inserted_rect.x < free_rect.x + free_rect.w ∧
      inserted_rect.x + inserted_rect.w > free_rect.x then
    (if inserted_rect.y + inserted_rect.h < free_rect.y + free_rect.h then
      Bin.push_non_degenerate
        { free_rect with
          y := inserted_rect.y + inserted_rect.h
          h := free_rect.y + free_rect.h - (inserted_rect.y + inserted_rect.h) }
    else []) ++
    (if inserted_rect.y > free_rect.y ∧ inserted_rect.y < free_rect.y + free_rect.h then
      Bin.push_non_degenerate { free_rect with h := inserted_rect.y - free_rect.y }
    else [])
  else []) ++
  (if inserted_rect.y < free_rect.y + free_rect.h ∧
      inserted_rect.y + inserted_rect.h > free_rect.y then
    (if inserted_rect.x > free_rect.x ∧ inserted_rect.x < free_rect.x + free_rect.w then
      Bin.push_non_degenerate { free_rect with w := inserted_rect.x - free_rect.x }
    else []) ++
    (if inserted_rect.x + inserted_rect.w < free_rect.x + free_rect.w then
      Bin.push_non_degenerate
        { free_rect with
          x := inserted_rect.x + inserted_rect.w
          w := free_rect.x + free_rect.w - (inserted_rect.x + inserted_rect.w) }
    else [])
  else [])

/-- The first loop of a placement ("compute new free rectangles"): the free rectangles that
stay in `m_free_rectangles`, and the contents of `m_new_free_rectangles` afterwards. -/
def Bin.split_free (r : Rect) : List Rect → List Rect × List Rect
  | [] => ([], [])
  | free_rect :: rest =>
    let tail := Bin.split_free r rest
    if Bin.overlaps free_rect r then
      (tail.1, Bin.compute_new_free_rectangles free_rect r ++ tail.2)
    else
      (free_rect :: tail.1, tail.2)

/-- The second loop ("validate the new free rectangles against themselves").  `before` holds
the elements in front of `iter1` and the third argument the elements from `iter1` on; one step
erases every element other than `*iter1` that lies inside `*iter1`, then advances `iter1`.
The first argument bounds the number of steps; the length of the list is enough. -/
def Bin.prune_new_loop : Nat → List Rect → List Rect → List Rect
  | 0, before, from_iter1 => before ++ from_iter1
  | _ + 1, before, [] => before
  | fuel + 1, before, cur :: rest =>
    Bin.prune_new_loop fuel
      (before.filter (fun b => !Bin.inside cur b) ++ [cur])
      (rest.filter (fun b => !Bin.inside cur b))

/-- The second loop of a placement, on the whole of `m_new_free_rectangles`. -/
def Bin.prune_new (new_free_rectangles : List Rect) : List Rect :=
  Bin.prune_new_loop new_free_rectangles.length [] new_free_rectangles

/-- The third loop ("validate the new free rectangles against the old free rectangles"): for
every old free rectangle in turn, erase the new rectangles that lie inside it. -/
def Bin.prune_against_old : List Rect → List Rect → List Rect
  | [], new_free_rectangles => new_free_rectangles
  | old :: rest, new_free_rectangles =>
    Bin.prune_against_old rest (new_free_rectangles.filter (fun b => !Bin.inside old b))

/-- Lines 42 to 78 of `maxrects.cpp`: the update of the packer once `r` has received its
position: split, the two validation loops, the merge, and the increment of the count. -/
def Bin.place (b : Bin) (r : Rect) : Bin :=
  let s := Bin.split_free r b.m_free_rectangles
  let new_free_rectangles := Bin.prune_against_old s.1 (Bin.prune_new s.2)
  { b with
    m_free_rectangles := s.1 ++ new_free_rectangles
    m_processed_rectangles := b.m_processed_rectangles + 1 }

/-- Modelled from the spec: the type `uint32` is declared in `mystdint.hpp`, which is not
among the sources.  Going by its name, and by the design document (the identifier appears
verbatim in the message), `static_cast<uint32>` keeps the low 32 bits of the code point, which
is the identity on a `char32_t`. -/
def to_uint32 (c : Nat) : Nat := c % 4294967296

/-- The message of the `std::runtime_error` that `layout_bulk` throws. -/
def Bin.error_msg (r : Rect) : String :=
  ("Error: The glyph ".append (Nat.repr (to_uint32 r.code_point))).append
    " (UTF-32 code point) didn't fit in an empty bin. The -font-size is too large for the -image-size."

/-- What a call of `Bin::layout_bulk` leaves: the container, the packer, and the message of
the exception when the call ended by a throw. -/
structure Layout where
  container : List Rect
  bin : Bin
  thrown : Option String
deriving DecidableEq

/-- Lines 38 to 40: the item receives the corner of the chosen free rectangle and the
current bin instance. -/
def Bin.assign (r it : Rect) (bin_instance : Int) : Rect :=
  { r with x := it.x, y := it.y, bin := bin_instance }

/-- The range-for loop of `Bin::layout_bulk` from some element of the container onwards, with
the current packer and the current value of the local `bin_instance`. -/
def Bin.layout_loop : Bin → Int → List Rect → Layout
  | b, _, [] => { container := [], bin := b, thrown := none }
  | b, bin_instance, r :: rest =>
    match Bin.find_best_free_rectangle b.m_free_rectangles r with
    | some it =>
      let r1 := Bin.assign r it bin_instance
      let out := Bin.layout_loop (b.place r1) bin_instance rest
      { out with container := r1 :: out.container }
    | none =>
      if !b.m_multiple_bins then
        { container := r :: rest, bin := b, thrown := none }
      else
        let b1 := b.reset
        match Bin.find_best_free_rectangle b1.m_free_rectangles r with
        | some it =>
          let r1 := Bin.assign r it (bin_instance + 1)
          let out := Bin.layout_loop (b1.place r1) (bin_instance + 1) rest
          { out with container := r1 :: out.container }
        | none =>
          { container := r :: rest, bin := b1, thrown := some (Bin.error_msg r) }

/-- The member `Bin::layout_bulk`: the loop, entered with `bin_instance = 0`. -/
def Bin.layout_bulk (b : Bin) (container : List Rect) : Layout :=
  Bin.layout_loop b 0 container

/-- Lines 25 to 37 of `maxrects.cpp` as one value: the free rectangle the search settles on,
with the packer and the bin instance at that moment (after the retry in a fresh bin when the
first search fails in multi-bin mode); `none` when the loop is left (by `return` or `throw`). -/
def Bin.choose (b : Bin) (bin_instance : Int) (r : Rect) : Option (Rect × Bin × Int) :=
  match Bin.find_best_free_rectangle b.m_free_rectangles r with
  | some it => some (it, b, bin_instance)
  | none =>
    if !b.m_multiple_bins then none
    else
      match Bin.find_best_free_rectangle b.reset.m_free_rectangles r with
      | some it => some (it, b.reset, bin_instance + 1)
      | none => none

/-- The elements of the container that the loop of `layout_bulk` has written to, in order. -/
def Bin.placed_loop : Bin → Int → List Rect → List Rect
  | _, _, [] => []
  | b, bin_instance, r :: rest =>
    match b.choose bin_instance r with
    | some (it, b1, bi1) =>
      Bin.assign r it bi1 :: Bin.placed_loop (b1.place (Bin.assign r it bi1)) bi1 rest
    | none => []

/-- The placed items as the caller reads them back (`App::run` walks `glyph_rects[i]` for
`i < processed_rectangles()`): the first `processed_rectangles()` elements of the container. -/
def Layout.placed (o : Layout) : List Rect :=
  o.container.take o.bin.processed_rectangles.toNat

/-- The elements of the container from index `processed_rectangles()` on. -/
def Layout.unplaced (o : Layout) : List Rect :=
  o.container.drop o.bin.processed_rectangles.toNat

/-- The rectangle lies within a bin of the given width and height. -/
def Rect.within (r : Rect) (W H : Int) : Prop :=
  0 ≤ r.x ∧ 0 ≤ r.y ∧ r.x + r.w ≤ W ∧ r.y + r.h ≤ H

instance (r : Rect) (W H : Int) : Decidable (r.within W H) := by
  unfold Rect.within; infer_instance

/-- Every free rectangle of the packer lies within the bin. -/
def Bin.free_within (b : Bin) : Prop :=
  ∀ f ∈ b.m_free_rectangles, f.within b.m_width b.m_height

instance (b : Bin) : Decidable b.free_within := by
  unfold Bin.free_within; infer_instance

/-- The item exceeds a `W` by `H` bin in at least one dimension. -/
def Rect.oversize (W H : Int) (r : Rect) : Bool := decide (W < r.w) || decide (H < r.h)

/-- One call of a member function of `Bin` that changes the packer. -/
inductive Call where
  | layout_bulk (container : List Rect)
  | reset

/-- The packer after one call; after a call of `layout_bulk` that throws it is the packer as
the throw leaves it. -/
def Bin.call (b : Bin) : Call → Bin
  | Call.layout_bulk container => (b.layout_bulk container).bin
  | Call.reset => b.reset

/-- The packer after a sequence of calls, the first call first. -/
def Bin.calls (b : Bin) : List Call → Bin
  | [] => b
  | c :: rest => (b.call c).calls rest

/-- The value of the local `bin_instance` after the loop has written the given elements,
having been entered with `bin_instance`: the bin index of the last element written, and
`bin_instance` itself when none was written. -/
def Bin.last_instance : Int → List Rect → Int
  | bin_instance, [] => bin_instance
  | _, p :: rest => Bin.last_instance p.bin rest

/-- The bin that a call of `layout_bulk` on a freshly constructed packer was filling when it
returned: the bin index of the last placed item (0 when nothing was placed). -/
def Layout.current_bin (o : Layout) : Int := Bin.last_instance 0 o.placed

/-- The items placed by a call of `layout_bulk` on a packer that had already processed
rectangles before: the first `processed_rectangles() - before` elements of the container. -/
def Layout.placed_after (before : Bin) (o : Layout) : List Rect :=
  o.container.take (o.bin.processed_rectangles - before.processed_rectangles).toNat

/-- The pixel `(px, py)` belongs to the rectangle. -/
def Rect.has_cell (r : Rect) (px py : Int) : Prop :=
  r.x ≤ px ∧ px < r.x + r.w ∧ r.y ≤ py ∧ py < r.y + r.h

instance (r : Rect) (px py : Int) : Decidable (r.has_cell px py) := by
  unfold Rect.has_cell; infer_instance

/-- The set of the pixels of the rectangle. -/
def Rect.cells (r : Rect) : Finset (Int × Int) :=
  Finset.Ico r.x (r.x + r.w) ×ˢ Finset.Ico r.y (r.y + r.h)

/-- The sum of the exact areas `w * h` of the rectangles of a list. -/
def total_area : List Rect → Int
  | [] => 0
  | r :: rest => r.w * r.h + total_area rest

/-- The pixels covered by the rectangles of a list. -/
def all_cells : List Rect → Finset (Int × Int)
  | [] => ∅
  | r :: rest => r.cells ∪ all_cells rest

/-- The two items have the same size. -/
def Rect.same_size (a b : Rect) : Prop := a.w = b.w ∧ a.h = b.h

instance (a b : Rect) : Decidable (a.same_size b) := by
  unfold Rect.same_size; infer_instance

/-- The rectangles at different positions of a free list are not nested: none of them lies
inside another one in the sense of `Bin::inside`. -/
def Bin.no_nesting (free_rectangles : List Rect) : Prop :=
  free_rectangles.Pairwise (fun a c => Bin.inside a c = false ∧ Bin.inside c a = false)

instance (free_rectangles : List Rect) : Decidable (Bin.no_nesting free_rectangles) := by
  unfold Bin.no_nesting; infer_instance

/-- Every free rectangle of the packer is non-degenerate and lies within the bin. -/
def Bin.free_proper (b : Bin) : Prop :=
  ∀ f ∈ b.m_free_rectangles, 0 < f.w ∧ 0 < f.h ∧ f.within b.m_width b.m_height

instance (b : Bin) : Decidable b.free_proper := by
  unfold Bin.free_proper; infer_instance

/-- The conversion of an `int` to `std::size_t` (64 bits), as in the third argument of
`std::memcpy`. -/
def to_size_t (n : Int) : Nat := (n % 18446744073709551616).toNat

/-- The function `place_pixel_data` of `application.cpp`, as the list of the offsets into
`atlas` of the bytes it writes, in the order it writes them: the first row starts at
`atlas_width * where.y + where.x` (an `int` expression), every row is one `memcpy` of
`glyph_pitch` bytes, and the next row starts `atlas_width` bytes further (pointer
arithmetic).  The parameter `dest` is the parameter `where` of the source. -/
def place_pixel_data (atlas_width : Int) (dest : Rect) (glyph_pitch : Int) : List Int :=
  (List.range dest.h.toNat).flatMap (fun (row : Nat) =>
    (List.range (to_size_t glyph_pitch)).map (fun (col : Nat) =>
      wrap_int (wrap_int (atlas_width * dest.y) + dest.x) + Int.ofNat row * atlas_width +
        Int.ofNat col))

/-- The number of bytes of the buffer `atlas` of `App::run` after
`atlas.resize(cli_args.image_size * cli_args.image_size)`: an `int` product converted to
`std::size_t`. -/
def atlas_size (image_size : Int) : Nat := to_size_t (wrap_int (image_size * image_size))

theorem wrap_int_le (n : Int) : wrap_int n ≤ INT_MAX := by
  unfold wrap_int INT_MAX; omega

theorem wrap_int_of_range (n : Int) (h1 : -2147483648 ≤ n) (h2 : n ≤ 2147483647) :
    wrap_int n = n := by
  unfold wrap_int; omega

theorem fits_iff (a b : Rect) : Bin.fits a b = true ↔ b.w ≤ a.w ∧ b.h ≤ a.h := by
  simp [Bin.fits]

theorem overlaps_iff (a b : Rect) :
    Bin.overlaps a b = true ↔
      (b.x < a.x + a.w ∧ a.x < b.x + b.w) ∧ (b.y < a.y + a.h ∧ a.y < b.y + b.h) := by
  simp only [Bin.overlaps, Bool.and_eq_true, decide_eq_true_eq]
  constructor <;> intro h <;> omega

theorem inside_iff (a b : Rect) :
    Bin.inside a b = true ↔
      a.x ≤ b.x ∧ b.x + b.w ≤ a.x + a.w ∧ a.y ≤ b.y ∧ b.y + b.h ≤ a.y + a.h := by
  simp only [Bin.inside, Bool.and_eq_true, decide_eq_true_eq]
  constructor <;> intro h <;> omega

theorem overlaps_comm (a b : Rect) : Bin.overlaps a b = Bin.overlaps b a := by
  rw [Bool.eq_iff_iff, overlaps_iff, overlaps_iff]
  constructor <;> intro h <;> omega

theorem find_best_loop_sound (o : Rect) (l : List Rect) :
    ∀ (baf bssf : Int) (res : Option Rect) (g : Rect),
      Bin.find_best_loop o l baf bssf res = some g →
        res = some g ∨ (g ∈ l ∧ Bin.fits g o = true) := by
  induction l with
  | nil => intro baf bssf res g h; left; simpa [Bin.find_best_loop] using h
  | cons f rest ih =>
    intro baf bssf res g h
    unfold Bin.find_best_loop at h
    split at h
    · rename_i hf
      simp only at h
      split at h
      · rcases ih _ _ _ _ h with h1 | ⟨h1, h2⟩
        · right; simp only [Option.some.injEq] at h1; subst h1; exact ⟨List.mem_cons_self _ _, hf⟩
        · right; exact ⟨List.mem_cons_of_mem _ h1, h2⟩
      · split at h
        · rcases ih _ _ _ _ h with h1 | ⟨h1, h2⟩
          · right; simp only [Option.some.injEq] at h1; subst h1; exact ⟨List.mem_cons_self _ _, hf⟩
          · right; exact ⟨List.mem_cons_of_mem _ h1, h2⟩
        · rcases ih _ _ _ _ h with h1 | ⟨h1, h2⟩
          · left; exact h1
          · right; exact ⟨List.mem_cons_of_mem _ h1, h2⟩
    · rcases ih _ _ _ _ h with h1 | ⟨h1, h2⟩
      · left; exact h1
      · right; exact ⟨List.mem_cons_of_mem _ h1, h2⟩

theorem find_best_sound (l : List Rect) (o g : Rect)
    (h : Bin.find_best_free_rectangle l o = some g) : g ∈ l ∧ Bin.fits g o = true := by
  rcases find_best_loop_sound o l _ _ _ _ h with h1 | h1
  · cases h1
  · exact h1

theorem find_best_loop_of_some (o : Rect) (l : List Rect) :
    ∀ (baf bssf : Int) (r0 : Rect), Bin.find_best_loop o l baf bssf (some r0) ≠ none := by
  induction l with
  | nil => intro baf bssf r0; simp [Bin.find_best_loop]
  | cons f rest ih =>
    intro baf bssf r0
    unfold Bin.find_best_loop
    simp only
    split
    · split
      · exact ih _ _ _
      · split
        · exact ih _ _ _
        · exact ih _ _ _
    · exact ih _ _ _

/-- When a region that fits leaves less than `INT_MAX` on its shorter side, the search from
the initial scores does not come back empty-handed. -/
theorem find_best_loop_complete (o : Rect) (l : List Rect)
    (h : ∃ f ∈ l, Bin.fits f o = true ∧ min (f.w - o.w) (f.h - o.h) < INT_MAX) :
    Bin.find_best_loop o l INT_MAX INT_MAX none ≠ none := by
  induction l with
  | nil => obtain ⟨f, hf, _⟩ := h; cases hf
  | cons f rest ih =>
    unfold Bin.find_best_loop
    simp only
    split
    · rename_i hfit
      split
      · exact find_best_loop_of_some _ _ _ _ _
      · rename_i hlt
        split
        · exact find_best_loop_of_some _ _ _ _ _
        · rename_i hne
          apply ih
          obtain ⟨g, hg, hgfit, hgmin⟩ := h
          rcases List.mem_cons.1 hg with rfl | hg
          · exfalso
            apply hne
            refine ⟨?_, hgmin⟩
            have := wrap_int_le (g.area - o.area)
            omega
          · exact ⟨g, hg, hgfit, hgmin⟩
    · rename_i hfit
      apply ih
      obtain ⟨g, hg, hgfit, hgmin⟩ := h
      rcases List.mem_cons.1 hg with rfl | hg
      · exact absurd hgfit hfit
      · exact ⟨g, hg, hgfit, hgmin⟩

theorem find_best_loop_least (o : Rect) (l : List Rect) :
    ∀ (baf bssf : Int) (res : Option Rect) (g : Rect),
      Bin.find_best_loop o l baf bssf res = some g →
      (∀ r0, res = some r0 → wrap_int (r0.area - o.area) ≤ baf) →
        wrap_int (g.area - o.area) ≤ baf ∧
        ∀ f ∈ l, Bin.fits f o = true →
          wrap_int (g.area - o.area) ≤ wrap_int (f.area - o.area) := by
  induction l with
  | nil =>
    intro baf bssf res g h hres
    simp only [Bin.find_best_loop] at h
    exact ⟨hres g h, by simp⟩
  | cons f rest ih =>
    intro baf bssf res g h hres
    unfold Bin.find_best_loop at h
    simp only at h
    split at h
    · rename_i hfit
      split at h
      · rename_i hlt
        obtain ⟨h1, h2⟩ := ih _ _ _ _ h (by intro r0 hr0; cases hr0; exact le_refl _)
        refine ⟨by omega, ?_⟩
        intro f' hf' hfit'
        rcases List.mem_cons.1 hf' with rfl | hf'
        · exact h1
        · exact h2 f' hf' hfit'
      · rename_i hlt
        split at h
        · rename_i heq
          obtain ⟨h1, h2⟩ := ih _ _ _ _ h (by intro r0 hr0; cases hr0; omega)
          refine ⟨h1, ?_⟩
          intro f' hf' hfit'
          rcases List.mem_cons.1 hf' with rfl | hf'
          · omega
          · exact h2 f' hf' hfit'
        · obtain ⟨h1, h2⟩ := ih _ _ _ _ h hres
          refine ⟨h1, ?_⟩
          intro f' hf' hfit'
          rcases List.mem_cons.1 hf' with rfl | hf'
          · omega
          · exact h2 f' hf' hfit'
    · rename_i hfit
      obtain ⟨h1, h2⟩ := ih _ _ _ _ h hres
      refine ⟨h1, ?_⟩
      intro f' hf' hfit'
      rcases List.mem_cons.1 hf' with rfl | hf'
      · exact absurd hfit' hfit
      · exact h2 f' hf' hfit'

/-! ## The split and the validation loops -/

theorem overlaps_false_iff (a b : Rect) :
    Bin.overlaps a b = false ↔
      ¬ ((b.x < a.x + a.w ∧ a.x < b.x + b.w) ∧ (b.y < a.y + a.h ∧ a.y < b.y + b.h)) := by
  rw [← overlaps_iff]; simp

theorem mem_push_non_degenerate (n f : Rect) :
    f ∈ Bin.push_non_degenerate n ↔ f = n ∧ 0 < n.w ∧ 0 < n.h := by
  unfold Bin.push_non_degenerate
  split
  · rename_i h; simp only [List.mem_singleton]; constructor
    · intro e; exact ⟨e, h.1, h.2⟩
    · intro e; exact e.1
  · rename_i h; simp only [List.not_mem_nil, false_iff]; intro e; exact h ⟨e.2.1, e.2.2⟩

/-- Every rectangle that a split emits is non-degenerate, lies inside the free rectangle that
was split, and does not overlap the inserted rectangle. -/
theorem compute_new_mem (g r f : Rect) (hov : Bin.overlaps g r = true)
    (hf : f ∈ Bin.compute_new_free_rectangles g r) :
    Bin.inside g f = true ∧ Bin.overlaps f r = false ∧ 0 < f.w ∧ 0 < f.h := by
  rw [overlaps_iff] at hov
  rw [inside_iff, overlaps_false_iff]
  unfold Bin.compute_new_free_rectangles at hf
  simp only [List.mem_append] at hf
  rcases hf with hf | hf
  · split at hf
    · simp only [List.mem_append] at hf
      rcases hf with hf | hf
      · split at hf
        · rw [mem_push_non_degenerate] at hf
          obtain ⟨rfl, h1, h2⟩ := hf
          simp only at h1 h2 ⊢
          omega
        · cases hf
      · split at hf
        · rw [mem_push_non_degenerate] at hf
          obtain ⟨rfl, h1, h2⟩ := hf
          simp only at h1 h2 ⊢
          omega
        · cases hf
    · cases hf
  · split at hf
    · simp only [List.mem_append] at hf
      rcases hf with hf | hf
      · split at hf
        · rw [mem_push_non_degenerate] at hf
          obtain ⟨rfl, h1, h2⟩ := hf
          simp only at h1 h2 ⊢
          omega
        · cases hf
      · split at hf
        · rw [mem_push_non_degenerate] at hf
          obtain ⟨rfl, h1, h2⟩ := hf
          simp only at h1 h2 ⊢
          omega
        · cases hf
    · cases hf

theorem split_free_fst (r : Rect) (l : List Rect) :
    (Bin.split_free r l).1 = l.filter (fun f => !Bin.overlaps f r) := by
  induction l with
  | nil => rfl
  | cons f rest ih =>
    unfold Bin.split_free
    simp only
    split
    · rename_i h; simp [List.filter_cons, h, ih]
    · rename_i h; simp [List.filter_cons, h, ih]

theorem split_free_snd_mem (r : Rect) (l : List Rect) (f : Rect)
    (hf : f ∈ (Bin.split_free r l).2) :
    ∃ g ∈ l, Bin.overlaps g r = true ∧ f ∈ Bin.compute_new_free_rectangles g r := by
  induction l with
  | nil => cases hf
  | cons g rest ih =>
    unfold Bin.split_free at hf
    simp only at hf
    split at hf
    · rename_i h
      rcases List.mem_append.1 hf with hf | hf
      · exact ⟨g, List.mem_cons_self _ _, h, hf⟩
      · obtain ⟨g', hg', h1, h2⟩ := ih hf
        exact ⟨g', List.mem_cons_of_mem _ hg', h1, h2⟩
    · obtain ⟨g', hg', h1, h2⟩ := ih hf
      exact ⟨g', List.mem_cons_of_mem _ hg', h1, h2⟩

theorem prune_new_loop_subset (fuel : Nat) :
    ∀ (before todo : List Rect) (f : Rect),
      f ∈ Bin.prune_new_loop fuel before todo → f ∈ before ∨ f ∈ todo := by
  induction fuel with
  | zero => intro before todo f hf; simpa [Bin.prune_new_loop] using hf
  | succ n ih =>
    intro before todo f hf
    cases todo with
    | nil => left; simpa [Bin.prune_new_loop] using hf
    | cons cur rest =>
      simp only [Bin.prune_new_loop] at hf
      rcases ih _ _ _ hf with h | h
      · rcases List.mem_append.1 h with h | h
        · left; exact (List.mem_filter.1 h).1
        · right; rw [List.mem_singleton] at h; subst h; exact List.mem_cons_self _ _
      · right; exact List.mem_cons_of_mem _ (List.mem_filter.1 h).1

theorem prune_new_subset (l : List Rect) (f : Rect) (hf : f ∈ Bin.prune_new l) : f ∈ l := by
  rcases prune_new_loop_subset _ _ _ _ hf with h | h
  · cases h
  · exact h

/-- The bound on the number of steps of the new-vs-new loop is never reached: two bounds that
are at least the length of the part still to visit give the same list. -/
theorem prune_new_loop_fuel (fuel1 : Nat) :
    ∀ (fuel2 : Nat) (before todo : List Rect), todo.length ≤ fuel1 → todo.length ≤ fuel2 →
      Bin.prune_new_loop fuel1 before todo = Bin.prune_new_loop fuel2 before todo := by
  induction fuel1 with
  | zero =>
    intro fuel2 before todo h1 h2
    have hnil : todo = [] := List.length_eq_zero.1 (by omega)
    subst hnil
    cases fuel2 <;> simp [Bin.prune_new_loop]
  | succ n ih =>
    intro fuel2 before todo h1 h2
    cases todo with
    | nil => cases fuel2 <;> simp [Bin.prune_new_loop]
    | cons cur rest =>
      cases fuel2 with
      | zero => simp at h2
      | succ m =>
        simp only [Bin.prune_new_loop]
        simp only [List.length_cons] at h1 h2
        have hlen : (rest.filter (fun b => !Bin.inside cur b)).length ≤ rest.length :=
          List.length_filter_le _ _
        exact ih m _ _ (by omega) (by omega)

/-- One step of the new-vs-new loop, for the bound that `prune_new` starts from. -/
theorem prune_new_cons (cur : Rect) (rest : List Rect) :
    Bin.prune_new (cur :: rest) =
      Bin.prune_new_loop (rest.filter (fun b => !Bin.inside cur b)).length [cur]
        (rest.filter (fun b => !Bin.inside cur b)) := by
  unfold Bin.prune_new
  simp only [List.length_cons, Bin.prune_new_loop, List.filter_nil, List.nil_append]
  exact prune_new_loop_fuel _ _ _ _ (List.length_filter_le _ _) (le_refl _)

theorem prune_against_old_subset (old : List Rect) :
    ∀ (l : List Rect) (f : Rect), f ∈ Bin.prune_against_old old l → f ∈ l := by
  induction old with
  | nil => intro l f hf; simpa [Bin.prune_against_old] using hf
  | cons o rest ih =>
    intro l f hf
    simp only [Bin.prune_against_old] at hf
    exact (List.mem_filter.1 (ih _ _ hf)).1

/-- Where a free rectangle of the packer comes from after a placement: it is an old free
rectangle that does not overlap the placed one, or a piece split off an old free rectangle
that overlaps it. -/
theorem place_free_mem (b : Bin) (r f : Rect) (hf : f ∈ (b.place r).m_free_rectangles) :
    (f ∈ b.m_free_rectangles ∧ Bin.overlaps f r = false) ∨
    ∃ g ∈ b.m_free_rectangles, Bin.overlaps g r = true ∧
      f ∈ Bin.compute_new_free_rectangles g r := by
  unfold Bin.place at hf
  simp only at hf
  rcases List.mem_append.1 hf with hf | hf
  · left
    rw [split_free_fst, List.mem_filter] at hf
    exact ⟨hf.1, by simpa using hf.2⟩
  · right
    exact split_free_snd_mem _ _ _ (prune_new_subset _ _ (prune_against_old_subset _ _ _ hf))

/-! ## The loop of `layout_bulk`, one element at a time -/

theorem choose_some (b : Bin) (bi : Int) (r it : Rect) (b1 : Bin) (bi1 : Int)
    (h : b.choose bi r = some (it, b1, bi1)) :
    it ∈ b1.m_free_rectangles ∧ Bin.fits it r = true ∧
      ((b1 = b ∧ bi1 = bi) ∨
        (b1 = b.reset ∧ bi1 = bi + 1 ∧ b.m_multiple_bins = true ∧
          Bin.find_best_free_rectangle b.m_free_rectangles r = none)) := by
  unfold Bin.choose at h
  split at h
  · rename_i it0 h0
    simp only [Option.some.injEq, Prod.mk.injEq] at h
    obtain ⟨rfl, rfl, rfl⟩ := h
    exact ⟨(find_best_sound _ _ _ h0).1, (find_best_sound _ _ _ h0).2, Or.inl ⟨rfl, rfl⟩⟩
  · rename_i h0
    split at h
    · cases h
    · rename_i hm
      split at h
      · rename_i it0 h1
        simp only [Option.some.injEq, Prod.mk.injEq] at h
        obtain ⟨rfl, rfl, rfl⟩ := h
        refine ⟨(find_best_sound _ _ _ h1).1, (find_best_sound _ _ _ h1).2, Or.inr ⟨rfl, rfl, ?_, h0⟩⟩
        simpa using hm
      · cases h

theorem layout_loop_cons_some (b : Bin) (bi : Int) (r it : Rect) (b1 : Bin) (bi1 : Int)
    (rest : List Rect) (h : b.choose bi r = some (it, b1, bi1)) :
    Bin.layout_loop b bi (r :: rest) =
      { Bin.layout_loop (b1.place (Bin.assign r it bi1)) bi1 rest with
        container :=
          Bin.assign r it bi1 ::
            (Bin.layout_loop (b1.place (Bin.assign r it bi1)) bi1 rest).container } := by
  unfold Bin.choose at h
  rw [Bin.layout_loop]
  split at h
  · rename_i it0 h0
    simp only [Option.some.injEq, Prod.mk.injEq] at h
    obtain ⟨rfl, rfl, rfl⟩ := h
    simp only [h0]
  · rename_i h0
    split at h
    · cases h
    · rename_i hm
      split at h
      · rename_i it0 h1
        simp only [Option.some.injEq, Prod.mk.injEq] at h
        obtain ⟨rfl, rfl, rfl⟩ := h
        simp only [h0, hm, h1]
        simp
      · cases h

theorem layout_loop_cons_none (b : Bin) (bi : Int) (r : Rect) (rest : List Rect)
    (h : b.choose bi r = none) :
    Bin.layout_loop b bi (r :: rest) =
      { container := r :: rest
        bin := if b.m_multiple_bins then b.reset else b
        thrown := if b.m_multiple_bins then some (Bin.error_msg r) else none } := by
  unfold Bin.choose at h
  rw [Bin.layout_loop]
  split at h
  · cases h
  · rename_i h0
    split at h
    · rename_i hm
      simp only [h0, hm]
      simp only [Bool.not_eq_true', Bool.not_eq_true] at hm
      simp [hm]
    · rename_i hm
      split at h
      · cases h
      · rename_i h1
        simp only [h0, hm, h1]
        simp only [Bool.not_eq_true, Bool.not_eq_false', Bool.not_eq_true'] at hm
        simp [hm]

theorem layout_loop_container (items : List Rect) :
    ∀ (b : Bin) (bi : Int),
      (Bin.layout_loop b bi items).container =
        Bin.placed_loop b bi items ++ items.drop (Bin.placed_loop b bi items).length := by
  induction items with
  | nil => intro b bi; simp [Bin.layout_loop, Bin.placed_loop]
  | cons r rest ih =>
    intro b bi
    cases h : b.choose bi r with
    | none => rw [layout_loop_cons_none _ _ _ _ h]; simp [Bin.placed_loop, h]
    | some c =>
      obtain ⟨it, b1, bi1⟩ := c
      rw [layout_loop_cons_some _ _ _ _ _ _ _ h]
      simp [Bin.placed_loop, h, ih]

theorem place_processed (b : Bin) (r : Rect) :
    (b.place r).m_processed_rectangles = b.m_processed_rectangles + 1 := rfl

theorem layout_loop_processed (items : List Rect) :
    ∀ (b : Bin) (bi : Int),
      (Bin.layout_loop b bi items).bin.m_processed_rectangles =
        b.m_processed_rectangles + ((Bin.placed_loop b bi items).length : Int) := by
  induction items with
  | nil => intro b bi; simp [Bin.layout_loop, Bin.placed_loop]
  | cons r rest ih =>
    intro b bi
    cases h : b.choose bi r with
    | none =>
      rw [layout_loop_cons_none _ _ _ _ h]
      cases hm : b.m_multiple_bins <;> simp [Bin.placed_loop, h, Bin.reset]
    | some c =>
      obtain ⟨it, b1, bi1⟩ := c
      rw [layout_loop_cons_some _ _ _ _ _ _ _ h]
      simp only [Bin.placed_loop, h, ih, place_processed, List.length_cons]
      rcases (choose_some _ _ _ _ _ _ h).2.2 with ⟨rfl, _⟩ | ⟨rfl, _⟩
      · push_cast; ring
      · simp only [Bin.reset]; push_cast; ring

theorem placed_loop_length_le (items : List Rect) :
    ∀ (b : Bin) (bi : Int), (Bin.placed_loop b bi items).length ≤ items.length := by
  induction items with
  | nil => intro b bi; simp [Bin.placed_loop]
  | cons r rest ih =>
    intro b bi
    cases h : b.choose bi r with
    | none => simp [Bin.placed_loop, h]
    | some c =>
      obtain ⟨it, b1, bi1⟩ := c
      simp only [Bin.placed_loop, h, List.length_cons]
      have := ih (b1.place (Bin.assign r it bi1)) bi1
      omega

/-- On a packer that has placed nothing yet, the placed part of the result of `layout_bulk`
is the list of the elements the loop has written to. -/
theorem layout_bulk_placed (b : Bin) (items : List Rect) (h0 : b.m_processed_rectangles = 0) :
    (b.layout_bulk items).placed = Bin.placed_loop b 0 items := by
  unfold Layout.placed Bin.processed_rectangles Bin.layout_bulk
  rw [layout_loop_processed, layout_loop_container, h0]
  simp

theorem layout_bulk_unplaced (b : Bin) (items : List Rect) (h0 : b.m_processed_rectangles = 0) :
    (b.layout_bulk items).unplaced = items.drop (Bin.placed_loop b 0 items).length := by
  unfold Layout.unplaced Bin.processed_rectangles Bin.layout_bulk
  rw [layout_loop_processed, layout_loop_container, h0]
  simp

/-! ## Invariants of the free list -/

theorem place_width (b : Bin) (r : Rect) : (b.place r).m_width = b.m_width := rfl
theorem place_height (b : Bin) (r : Rect) : (b.place r).m_height = b.m_height := rfl
theorem place_multiple_bins (b : Bin) (r : Rect) :
    (b.place r).m_multiple_bins = b.m_multiple_bins := rfl
theorem reset_width (b : Bin) : b.reset.m_width = b.m_width := rfl
theorem reset_height (b : Bin) : b.reset.m_height = b.m_height := rfl
theorem reset_multiple_bins (b : Bin) : b.reset.m_multiple_bins = b.m_multiple_bins := rfl

theorem new_free_within (W H : Int) (m : Bool) : (Bin.new W H m).free_within := by
  intro f hf
  simp only [Bin.new, List.mem_singleton] at hf
  subst hf
  simp [Rect.within, Bin.new]

theorem reset_free_within (b : Bin) : b.reset.free_within := by
  intro f hf
  simp only [Bin.reset, List.mem_singleton] at hf
  subst hf
  simp [Rect.within, Bin.reset]

theorem within_of_inside (g f : Rect) (W H : Int) (hg : g.within W H)
    (hin : Bin.inside g f = true) : f.within W H := by
  rw [inside_iff] at hin
  unfold Rect.within at *
  omega

theorem place_free_within (b : Bin) (r : Rect) (hb : b.free_within) :
    (b.place r).free_within := by
  intro f hf
  rw [place_width, place_height]
  rcases place_free_mem b r f hf with ⟨h1, _⟩ | ⟨g, hg, hov, hmem⟩
  · exact hb f h1
  · exact within_of_inside g f _ _ (hb g hg) (compute_new_mem g r f hov hmem).1

theorem assign_within (r it : Rect) (bi : Int) (W H : Int) (hit : it.within W H)
    (hfit : Bin.fits it r = true) : (Bin.assign r it bi).within W H := by
  rw [fits_iff] at hfit
  unfold Rect.within at *
  simp only [Bin.assign]
  omega

/-- What the packer and the chosen free rectangle look like when the search succeeds, given
that the free rectangles lay within the bin before. -/
theorem choose_some_within (b : Bin) (bi : Int) (r it : Rect) (b1 : Bin) (bi1 : Int)
    (hb : b.free_within) (h : b.choose bi r = some (it, b1, bi1)) :
    b1.free_within ∧ b1.m_width = b.m_width ∧ b1.m_height = b.m_height ∧
      b1.m_multiple_bins = b.m_multiple_bins ∧ it.within b.m_width b.m_height := by
  obtain ⟨hmem, _, hcase⟩ := choose_some _ _ _ _ _ _ h
  rcases hcase with ⟨rfl, _⟩ | ⟨rfl, _⟩
  · exact ⟨hb, rfl, rfl, rfl, hb it hmem⟩
  · exact ⟨reset_free_within b, rfl, rfl, rfl, reset_free_within b it hmem⟩

theorem placed_loop_within (items : List Rect) :
    ∀ (b : Bin) (bi : Int), b.free_within →
      ∀ p ∈ Bin.placed_loop b bi items, p.within b.m_width b.m_height := by
  induction items with
  | nil => intro b bi _ p hp; simp [Bin.placed_loop] at hp
  | cons r rest ih =>
    intro b bi hb p hp
    cases h : b.choose bi r with
    | none => simp [Bin.placed_loop, h] at hp
    | some c =>
      obtain ⟨it, b1, bi1⟩ := c
      simp only [Bin.placed_loop, h, List.mem_cons] at hp
      obtain ⟨hb1, hw, hh, _, hit⟩ := choose_some_within _ _ _ _ _ _ hb h
      rcases hp with rfl | hp
      · exact assign_within _ _ _ _ _ hit (choose_some _ _ _ _ _ _ h).2.1
      · have := ih (b1.place (Bin.assign r it bi1)) bi1 (place_free_within _ _ hb1) p hp
        rw [place_width, place_height, hw, hh] at this
        exact this

theorem overlaps_false_of_inside (g f p : Rect) (hin : Bin.inside g f = true)
    (h : Bin.overlaps g p = false) : Bin.overlaps f p = false := by
  rw [inside_iff] at hin
  rw [overlaps_false_iff] at *
  omega

theorem overlaps_assign_false (r it p : Rect) (bi : Int) (hfit : Bin.fits it r = true)
    (h : Bin.overlaps it p = false) : Bin.overlaps (Bin.assign r it bi) p = false := by
  rw [fits_iff] at hfit
  rw [overlaps_false_iff] at *
  simp only [Bin.assign]
  omega

/-- After a placement no free rectangle overlaps the rectangle just placed. -/
theorem place_free_not_overlaps (b : Bin) (r f : Rect)
    (hf : f ∈ (b.place r).m_free_rectangles) : Bin.overlaps f r = false := by
  rcases place_free_mem b r f hf with ⟨_, h⟩ | ⟨g, _, hov, hmem⟩
  · exact h
  · exact (compute_new_mem g r f hov hmem).2.1

/-- A placement keeps the free rectangles clear of whatever they were clear of before. -/
theorem place_free_keeps_clear (b : Bin) (r p f : Rect)
    (hclear : ∀ g ∈ b.m_free_rectangles, Bin.overlaps g p = false)
    (hf : f ∈ (b.place r).m_free_rectangles) : Bin.overlaps f p = false := by
  rcases place_free_mem b r f hf with ⟨h1, _⟩ | ⟨g, hg, hov, hmem⟩
  · exact hclear f h1
  · exact overlaps_false_of_inside g f p (compute_new_mem g r f hov hmem).1 (hclear g hg)

theorem placed_loop_no_overlap (items : List Rect) :
    ∀ (b : Bin) (bi : Int) (done : List Rect),
      done.Pairwise (fun p q => p.bin = q.bin → Bin.overlaps p q = false) →
      (∀ p ∈ done, p.bin ≤ bi) →
      (∀ p ∈ done, p.bin = bi → ∀ f ∈ b.m_free_rectangles, Bin.overlaps f p = false) →
      (done ++ Bin.placed_loop b bi items).Pairwise
        (fun p q => p.bin = q.bin → Bin.overlaps p q = false) := by
  induction items with
  | nil => intro b bi done h1 _ _; simpa [Bin.placed_loop] using h1
  | cons r rest ih =>
    intro b bi done h1 h2 h3
    cases h : b.choose bi r with
    | none => simpa [Bin.placed_loop, h] using h1
    | some c =>
      obtain ⟨it, b1, bi1⟩ := c
      simp only [Bin.placed_loop, h]
      obtain ⟨hmem, hfit, hcase⟩ := choose_some _ _ _ _ _ _ h
      have hbin : (Bin.assign r it bi1).bin = bi1 := rfl
      rw [List.append_cons]
      apply ih
      · rw [List.pairwise_append]
        refine ⟨h1, List.pairwise_singleton _ _, ?_⟩
        intro p hp q hq hpq
        rw [List.mem_singleton] at hq
        subst hq
        rw [hbin] at hpq
        rcases hcase with ⟨rfl, rfl⟩ | ⟨_, rfl, _⟩
        · rw [overlaps_comm]
          exact overlaps_assign_false _ _ _ _ hfit (h3 p hp hpq it hmem)
        · have := h2 p hp
          omega
      · intro p hp
        rcases List.mem_append.1 hp with hd | hs
        · have := h2 p hd
          rcases hcase with ⟨_, rfl⟩ | ⟨_, rfl, _⟩ <;> omega
        · rw [List.mem_singleton] at hs
          subst hs
          exact le_of_eq hbin
      · intro p hp hpb f hf
        rcases List.mem_append.1 hp with hd | hs
        · have hle := h2 p hd
          rcases hcase with ⟨rfl, rfl⟩ | ⟨_, rfl, _⟩
          · exact place_free_keeps_clear _ _ _ _ (h3 p hd hpb) hf
          · omega
        · rw [List.mem_singleton] at hs
          subst hs
          exact place_free_not_overlaps _ _ _ hf

/-! ## Multi-bin mode -/

theorem oversize_iff (W H : Int) (r : Rect) : r.oversize W H = true ↔ W < r.w ∨ H < r.h := by
  simp [Rect.oversize]

theorem oversize_false_iff (W H : Int) (r : Rect) :
    r.oversize W H = false ↔ r.w ≤ W ∧ r.h ≤ H := by
  rw [← Bool.not_eq_true, oversize_iff]; omega

/-- Within a bin whose sides are `int`s, the search for an item of positive size comes back
empty-handed exactly when no free rectangle fits the item. -/
theorem find_best_none_iff (l : List Rect) (o : Rect) (W H : Int)
    (hl : ∀ f ∈ l, f.within W H) (hW : W ≤ INT_MAX) (ho : 0 < o.w) :
    Bin.find_best_free_rectangle l o = none ↔ ∀ f ∈ l, Bin.fits f o = false := by
  constructor
  · intro hnone f hf
    by_contra hfit
    rw [Bool.not_eq_false] at hfit
    refine find_best_loop_complete o l ⟨f, hf, hfit, ?_⟩ hnone
    have := hl f hf
    unfold Rect.within at this
    have : f.w - o.w < INT_MAX := by omega
    exact lt_of_le_of_lt (min_le_left _ _) this
  · intro hall
    cases h : Bin.find_best_free_rectangle l o with
    | none => rfl
    | some g =>
      have := find_best_sound l o g h
      rw [hall g this.1] at this
      exact absurd this.2 (by decide)

theorem choose_of_oversize (b : Bin) (bi : Int) (r : Rect) (hb : b.free_within)
    (hr : r.oversize b.m_width b.m_height = true) : b.choose bi r = none := by
  cases h : b.choose bi r with
  | none => rfl
  | some c =>
    obtain ⟨it, b1, bi1⟩ := c
    exfalso
    have hit := (choose_some_within _ _ _ _ _ _ hb h).2.2.2.2
    have hfit := (choose_some _ _ _ _ _ _ h).2.1
    rw [fits_iff] at hfit
    rw [oversize_iff] at hr
    unfold Rect.within at hit
    omega

theorem choose_multi_of_not_oversize (b : Bin) (bi : Int) (r : Rect)
    (hm : b.m_multiple_bins = true) (hW : b.m_width ≤ INT_MAX) (ho : 0 < r.w)
    (hr : r.oversize b.m_width b.m_height = false) : b.choose bi r ≠ none := by
  unfold Bin.choose
  split
  · simp
  · simp only [hm, Bool.not_true, Bool.false_eq_true, ↓reduceIte]
    split
    · simp
    · rename_i h1
      exfalso
      rw [find_best_none_iff _ _ _ _ (reset_free_within b) (by rw [reset_width]; exact hW) ho] at h1
      have := h1 { w := b.m_width, h := b.m_height } (by simp [Bin.reset])
      rw [oversize_false_iff] at hr
      rw [← Bool.not_eq_true, fits_iff] at this
      exact this hr

/-- In multi-bin mode the loop throws at the first oversize item, and it places every item in
front of that one. -/
theorem multi_loop_spec (items : List Rect) :
    ∀ (b : Bin) (bi : Int), b.m_multiple_bins = true → b.free_within →
      b.m_width ≤ INT_MAX → (∀ r ∈ items, 0 < r.w) →
      (Bin.layout_loop b bi items).thrown =
          (items.find? (Rect.oversize b.m_width b.m_height)).map Bin.error_msg ∧
        (Bin.placed_loop b bi items).length =
          (items.takeWhile (fun r => !r.oversize b.m_width b.m_height)).length := by
  induction items with
  | nil => intro b bi _ _ _ _; simp [Bin.layout_loop, Bin.placed_loop]
  | cons r rest ih =>
    intro b bi hm hb hW hpos
    cases hr : r.oversize b.m_width b.m_height with
    | true =>
      have hc := choose_of_oversize b bi r hb hr
      rw [layout_loop_cons_none _ _ _ _ hc]
      simp [Bin.placed_loop, hc, hm, hr]
    | false =>
      have hc := choose_multi_of_not_oversize b bi r hm hW (hpos r (List.mem_cons_self _ _)) hr
      cases h : b.choose bi r with
      | none => exact absurd h hc
      | some c =>
        obtain ⟨it, b1, bi1⟩ := c
        obtain ⟨hb1, hw, hh, hm1, _⟩ := choose_some_within _ _ _ _ _ _ hb h
        rw [layout_loop_cons_some _ _ _ _ _ _ _ h]
        have := ih (b1.place (Bin.assign r it bi1)) bi1 (by rw [place_multiple_bins, hm1, hm])
          (place_free_within _ _ hb1) (by rw [place_width, hw]; exact hW)
          (fun x hx => hpos x (List.mem_cons_of_mem _ hx))
        rw [place_width, place_height, hw, hh] at this
        simp [Bin.placed_loop, h, hr, this.1, this.2]

/-! ## What the loop leaves untouched -/

/-- The loop changes nothing but `x`, `y` and `bin` of the elements it writes to, and the bin
index it writes is at least the bin instance the loop was entered with. -/
theorem placed_loop_frame (items : List Rect) :
    ∀ (b : Bin) (bi : Int) (i : Nat) (r p : Rect),
      items[i]? = some r → (Bin.placed_loop b bi items)[i]? = some p →
        p.code_point = r.code_point ∧ p.w = r.w ∧ p.h = r.h ∧ bi ≤ p.bin := by
  induction items with
  | nil => intro b bi i r p hr; simp at hr
  | cons r0 rest ih =>
    intro b bi i r p hr hp
    cases h : b.choose bi r0 with
    | none => simp [Bin.placed_loop, h] at hp
    | some c =>
      obtain ⟨it, b1, bi1⟩ := c
      simp only [Bin.placed_loop, h] at hp
      have hbi : bi ≤ bi1 := by
        rcases (choose_some _ _ _ _ _ _ h).2.2 with ⟨_, rfl⟩ | ⟨_, rfl, _⟩ <;> omega
      cases i with
      | zero =>
        simp only [List.getElem?_cons_zero, Option.some.injEq] at hr hp
        subst hr hp
        exact ⟨rfl, rfl, rfl, hbi⟩
      | succ i =>
        simp only [List.getElem?_cons_succ] at hr hp
        obtain ⟨h1, h2, h3, h4⟩ := ih _ _ i r p hr hp
        exact ⟨h1, h2, h3, le_trans hbi h4⟩

theorem layout_loop_length (items : List Rect) (b : Bin) (bi : Int) :
    (Bin.layout_loop b bi items).container.length = items.length := by
  rw [layout_loop_container, List.length_append, List.length_drop]
  have := placed_loop_length_le items b bi
  omega

theorem processed_toNat (b : Bin) (items : List Rect) (h0 : b.m_processed_rectangles = 0) :
    (b.layout_bulk items).bin.processed_rectangles.toNat = (Bin.placed_loop b 0 items).length := by
  unfold Bin.processed_rectangles Bin.layout_bulk
  rw [layout_loop_processed, h0]
  simp

theorem layout_bulk_processed (b : Bin) (items : List Rect)
    (h0 : b.m_processed_rectangles = 0) :
    (b.layout_bulk items).bin.processed_rectangles =
      ((Bin.placed_loop b 0 items).length : Int) := by
  unfold Bin.processed_rectangles Bin.layout_bulk
  rw [layout_loop_processed, h0, zero_add]

theorem layout_bulk_container (b : Bin) (items : List Rect) :
    (b.layout_bulk items).container =
      Bin.placed_loop b 0 items ++ items.drop (Bin.placed_loop b 0 items).length :=
  layout_loop_container items b 0

/-! ## Bin indices along the container -/

theorem takeWhile_eq_self {α : Type} (p : α → Bool) (l : List α) (h : ∀ x ∈ l, p x = true) :
    l.takeWhile p = l := by
  induction l with
  | nil => rfl
  | cons a rest ih =>
    rw [List.takeWhile_cons_of_pos (h a (List.mem_cons_self _ _)),
      ih (fun x hx => h x (List.mem_cons_of_mem _ hx))]

/-- The first element the loop writes to, when the loop starts on a packer whose free list is
what `reset` would leave: it lands in the bin instance the loop was entered with. -/
theorem placed_loop_head_fresh (items : List Rect) (b : Bin) (bi : Int) (p : Rect)
    (hfresh : b.reset = b) (hp : (Bin.placed_loop b bi items)[0]? = some p) : p.bin = bi := by
  cases items with
  | nil => simp [Bin.placed_loop] at hp
  | cons r rest =>
    cases h : b.choose bi r with
    | none => simp [Bin.placed_loop, h] at hp
    | some c =>
      obtain ⟨it, b1, bi1⟩ := c
      simp only [Bin.placed_loop, h, List.getElem?_cons_zero, Option.some.injEq] at hp
      subst hp
      unfold Bin.choose at h
      rw [hfresh] at h
      split at h
      · simp only [Option.some.injEq, Prod.mk.injEq] at h
        obtain ⟨_, _, rfl⟩ := h
        rfl
      · rename_i h0
        simp only [h0] at h
        split at h <;> cases h

/-- The first element the loop writes to lands in the current bin instance, or in the next
one at the corner of the empty bin. -/
theorem placed_loop_head (items : List Rect) (b : Bin) (bi : Int) (p : Rect)
    (hp : (Bin.placed_loop b bi items)[0]? = some p) :
    p.bin = bi ∨ (p.bin = bi + 1 ∧ p.x = 0 ∧ p.y = 0) := by
  cases items with
  | nil => simp [Bin.placed_loop] at hp
  | cons r rest =>
    cases h : b.choose bi r with
    | none => simp [Bin.placed_loop, h] at hp
    | some c =>
      obtain ⟨it, b1, bi1⟩ := c
      simp only [Bin.placed_loop, h, List.getElem?_cons_zero, Option.some.injEq] at hp
      subst hp
      obtain ⟨hmem, _, hcase⟩ := choose_some _ _ _ _ _ _ h
      rcases hcase with ⟨_, rfl⟩ | ⟨rfl, rfl, _⟩
      · left; rfl
      · right
        simp only [Bin.reset, List.mem_singleton] at hmem
        subst hmem
        exact ⟨rfl, rfl, rfl⟩

theorem placed_loop_step (items : List Rect) :
    ∀ (b : Bin) (bi : Int) (i : Nat) (p q : Rect),
      (Bin.placed_loop b bi items)[i]? = some p →
      (Bin.placed_loop b bi items)[i + 1]? = some q →
        q.bin = p.bin ∨ (q.bin = p.bin + 1 ∧ q.x = 0 ∧ q.y = 0) := by
  induction items with
  | nil => intro b bi i p q hp; simp [Bin.placed_loop] at hp
  | cons r rest ih =>
    intro b bi i p q hp hq
    cases h : b.choose bi r with
    | none => simp [Bin.placed_loop, h] at hp
    | some c =>
      obtain ⟨it, b1, bi1⟩ := c
      simp only [Bin.placed_loop, h] at hp hq
      cases i with
      | zero =>
        simp only [List.getElem?_cons_zero, Option.some.injEq] at hp
        simp only [zero_add, List.getElem?_cons_succ] at hq
        subst hp
        exact placed_loop_head _ _ _ _ hq
      | succ i =>
        simp only [List.getElem?_cons_succ] at hp hq
        exact ih _ _ i p q hp hq

/-! ## Single-bin mode -/

theorem single_loop_thrown (items : List Rect) :
    ∀ (b : Bin) (bi : Int), b.m_multiple_bins = false →
      (Bin.layout_loop b bi items).thrown = none := by
  induction items with
  | nil => intro b bi _; simp [Bin.layout_loop]
  | cons r rest ih =>
    intro b bi hm
    cases h : b.choose bi r with
    | none => rw [layout_loop_cons_none _ _ _ _ h]; simp [hm]
    | some c =>
      obtain ⟨it, b1, bi1⟩ := c
      rw [layout_loop_cons_some _ _ _ _ _ _ _ h]
      rcases (choose_some _ _ _ _ _ _ h).2.2 with ⟨rfl, rfl⟩ | ⟨_, _, hm1, _⟩
      · exact ih _ _ (by rw [place_multiple_bins]; exact hm)
      · rw [hm] at hm1; cases hm1

theorem choose_single (b : Bin) (bi : Int) (r : Rect) (hm : b.m_multiple_bins = false) :
    b.choose bi r =
      (Bin.find_best_free_rectangle b.m_free_rectangles r).map (fun it => (it, b, bi)) := by
  unfold Bin.choose
  cases Bin.find_best_free_rectangle b.m_free_rectangles r <;> simp [hm]

/-- In single-bin mode, the run of the loop on the first `i` elements, for `i` up to the
number of elements the whole run places, places all of them; the packer it leaves is the one
the whole run meets when it comes to element `i`. -/
theorem single_loop_prefix (items : List Rect) :
    ∀ (b : Bin) (bi : Int) (i : Nat), b.m_multiple_bins = false →
      i ≤ (Bin.placed_loop b bi items).length →
      (Bin.layout_loop b bi (items.take i)).bin.m_processed_rectangles =
          b.m_processed_rectangles + i ∧
        (∀ r, items[i]? = some r →
          (i < (Bin.placed_loop b bi items).length →
            ∃ f ∈ (Bin.layout_loop b bi (items.take i)).bin.m_free_rectangles,
              Bin.fits f r = true) ∧
          (i = (Bin.placed_loop b bi items).length →
            Bin.find_best_free_rectangle
              (Bin.layout_loop b bi (items.take i)).bin.m_free_rectangles r = none)) ∧
        (i = (Bin.placed_loop b bi items).length →
          (Bin.layout_loop b bi items).bin = (Bin.layout_loop b bi (items.take i)).bin) := by
  induction items with
  | nil =>
    intro b bi i hm hi
    simp only [Bin.placed_loop, List.length_nil, Nat.le_zero_eq] at hi
    subst hi
    simp [Bin.layout_loop]
  | cons r0 rest ih =>
    intro b bi i hm hi
    have hc := choose_single b bi r0 hm
    cases hfb : Bin.find_best_free_rectangle b.m_free_rectangles r0 with
    | none =>
      rw [hfb, Option.map_none'] at hc
      simp only [Bin.placed_loop, hc, List.length_nil, Nat.le_zero_eq] at hi ⊢
      subst hi
      rw [layout_loop_cons_none _ _ _ _ hc]
      simp [Bin.layout_loop, hm, hfb]
    | some it =>
      rw [hfb, Option.map_some'] at hc
      simp only [Bin.placed_loop, hc, List.length_cons] at hi ⊢
      cases i with
      | zero =>
        simp only [List.take_zero, Bin.layout_loop, List.getElem?_cons_zero, Option.some.injEq]
        refine ⟨by simp, ?_, by omega⟩
        intro r hr
        subst hr
        exact ⟨fun _ => ⟨it, (find_best_sound _ _ _ hfb).1, (find_best_sound _ _ _ hfb).2⟩,
          by omega⟩
      | succ i =>
        obtain ⟨h1, h2, h3⟩ := ih (b.place (Bin.assign r0 it bi)) bi i
          (by rw [place_multiple_bins]; exact hm) (by omega)
        simp only [List.take_succ_cons, List.getElem?_cons_succ]
        rw [layout_loop_cons_some _ _ _ _ _ _ _ hc, layout_loop_cons_some _ _ _ _ _ _ _ hc]
        simp only
        refine ⟨?_, ?_, ?_⟩
        · rw [h1, place_processed]; push_cast; ring
        · intro r hr
          obtain ⟨h4, h5⟩ := h2 r hr
          exact ⟨fun hlt => h4 (by omega), fun heq => h5 (by omega)⟩
        · intro heq
          exact h3 (by omega)

theorem layout_loop_free_within (items : List Rect) :
    ∀ (b : Bin) (bi : Int), b.free_within →
      (Bin.layout_loop b bi items).bin.free_within ∧
        (Bin.layout_loop b bi items).bin.m_width = b.m_width ∧
        (Bin.layout_loop b bi items).bin.m_height = b.m_height := by
  induction items with
  | nil => intro b bi hb; exact ⟨hb, rfl, rfl⟩
  | cons r rest ih =>
    intro b bi hb
    cases h : b.choose bi r with
    | none =>
      rw [layout_loop_cons_none _ _ _ _ h]
      cases hm : b.m_multiple_bins
      · exact ⟨hb, rfl, rfl⟩
      · exact ⟨reset_free_within b, rfl, rfl⟩
    | some c =>
      obtain ⟨it, b1, bi1⟩ := c
      rw [layout_loop_cons_some _ _ _ _ _ _ _ h]
      obtain ⟨hb1, hw, hh, _, _⟩ := choose_some_within _ _ _ _ _ _ hb h
      obtain ⟨h1, h2, h3⟩ := ih (b1.place (Bin.assign r it bi1)) bi1 (place_free_within _ _ hb1)
      exact ⟨h1, by rw [h2, place_width, hw], by rw [h3, place_height, hh]⟩

/-! ## Exact areas -/

/-- For an item without a negative side and a region that fits it and whose area is an `int`,
the unused area the search computes is the exact difference of the areas. -/
theorem unused_area_exact (f o : Rect) (ho : 0 ≤ o.w ∧ 0 ≤ o.h) (hfit : Bin.fits f o = true)
    (hf : f.w * f.h ≤ INT_MAX) :
    wrap_int (f.area - o.area) = f.w * f.h - o.w * o.h := by
  rw [fits_iff] at hfit
  unfold INT_MAX at hf
  have h1 : 0 ≤ o.w * o.h := mul_nonneg ho.1 ho.2
  have h2 : o.w * o.h ≤ f.w * f.h := mul_le_mul hfit.1 hfit.2 ho.2 (le_trans ho.1 hfit.1)
  unfold Rect.area
  rw [wrap_int_of_range (f.w * f.h) (by omega) hf, wrap_int_of_range (o.w * o.h) (by omega)
    (by omega), wrap_int_of_range _ (by omega) (by omega)]

theorem short_side_lt_of_area (f o : Rect) (ho : 0 ≤ o.w ∧ 0 ≤ o.h)
    (hf : f.w * f.h ≤ INT_MAX) : min (f.w - o.w) (f.h - o.h) < INT_MAX := by
  by_contra hge
  rw [not_lt, le_min_iff] at hge
  unfold INT_MAX at *
  have h1 : (2147483647 : Int) ≤ f.w := by omega
  have h2 : (2147483647 : Int) ≤ f.h := by omega
  have h3 : (2147483647 : Int) * 2147483647 ≤ f.w * f.h :=
    mul_le_mul h1 h2 (by norm_num) (by omega)
  omega

/-! ## The contract of `layout_bulk` -/

theorem pairwise_getElem? {α : Type} (R : α → α → Prop) (hsymm : ∀ a b, R a b → R b a)
    (l : List α) (hl : l.Pairwise R) (i j : Nat) (a b : α) (hij : i ≠ j)
    (hi : l[i]? = some a) (hj : l[j]? = some b) : R a b := by
  rw [List.pairwise_iff_getElem] at hl
  obtain ⟨hi1, rfl⟩ := List.getElem?_eq_some.1 hi
  obtain ⟨hj1, rfl⟩ := List.getElem?_eq_some.1 hj
  rcases Nat.lt_or_gt_of_ne hij with h | h
  · exact hl i j hi1 hj1 h
  · exact hsymm _ _ (hl j i hj1 hi1 h)

/-- C1 (no-overlap invariant).  After one call of `layout_bulk` on a freshly constructed
bin, in either mode and whether the call returns or throws, two placed items at different
indices of the container that carry the same bin index do not overlap in the sense of
`Bin::overlaps`.  This holds for every width and height of the bin and every input, in
particular for positive sizes. -/
theorem layout_bulk_no_overlap (W H : Int) (multiple_bins : Bool) (items : List Rect)
    (i j : Nat) (p q : Rect) (hij : i ≠ j)
    (hp : ((Bin.new W H multiple_bins).layout_bulk items).placed[i]? = some p)
    (hq : ((Bin.new W H multiple_bins).layout_bulk items).placed[j]? = some q)
    (hbin : p.bin = q.bin) : Bin.overlaps p q = false := by
  rw [layout_bulk_placed _ _ rfl] at hp hq
  have h := placed_loop_no_overlap items (Bin.new W H multiple_bins) 0 []
    List.Pairwise.nil (by simp) (by simp)
  rw [List.nil_append] at h
  refine pairwise_getElem? _ ?_ _ h i j p q hij hp hq hbin
  intro a b hab hba
  rw [overlaps_comm]
  exact hab hba.symm

/-- C1 at the 10 by 10 single bin with the items 6x6, 6x4, 4x6: the second and the third
placed item share bin 0 and do not overlap. -/
theorem layout_bulk_no_overlap_witness :
    ((Bin.new 10 10 false).layout_bulk
        [{ code_point := 1, w := 6, h := 6 }, { code_point := 2, w := 6, h := 4 },
          { code_point := 3, w := 4, h := 6 }]).placed[1]? =
      some { code_point := 2, x := 0, y := 6, w := 6, h := 4, bin := 0 } ∧
    ((Bin.new 10 10 false).layout_bulk
        [{ code_point := 1, w := 6, h := 6 }, { code_point := 2, w := 6, h := 4 },
          { code_point := 3, w := 4, h := 6 }]).placed[2]? =
      some { code_point := 3, x := 6, y := 0, w := 4, h := 6, bin := 0 } ∧
    Bin.overlaps { code_point := 2, x := 0, y := 6, w := 6, h := 4, bin := 0 }
      { code_point := 3, x := 6, y := 0, w := 4, h := 6, bin := 0 } = false :=
  ⟨by decide, by decide,
    layout_bulk_no_overlap 10 10 false
      [{ code_point := 1, w := 6, h := 6 }, { code_point := 2, w := 6, h := 4 },
        { code_point := 3, w := 4, h := 6 }]
      1 2 _ _ (by decide) (by decide) (by decide) (by decide)⟩

/-- C2 (containment invariant).  Every item placed by `layout_bulk` on a freshly
constructed `W` by `H` bin, in either mode, has `x >= 0`, `y >= 0`, `x + w <= W` and
`y + h <= H`.  This holds for every width and height and every input, in particular for
positive sizes. -/
theorem layout_bulk_within_bin (W H : Int) (multiple_bins : Bool) (items : List Rect)
    (p : Rect) (hp : p ∈ ((Bin.new W H multiple_bins).layout_bulk items).placed) :
    0 ≤ p.x ∧ 0 ≤ p.y ∧ p.x + p.w ≤ W ∧ p.y + p.h ≤ H := by
  rw [layout_bulk_placed _ _ rfl] at hp
  exact placed_loop_within items (Bin.new W H multiple_bins) 0 (new_free_within W H _) p hp

/-- C2 at the 10 by 10 single bin with the items 6x6, 6x4, 4x6: the third item, placed at
(6, 0), lies within the bin. -/
theorem layout_bulk_within_bin_witness :
    ({ code_point := 3, x := 6, y := 0, w := 4, h := 6, bin := 0 } : Rect) ∈
      ((Bin.new 10 10 false).layout_bulk
        [{ code_point := 1, w := 6, h := 6 }, { code_point := 2, w := 6, h := 4 },
          { code_point := 3, w := 4, h := 6 }]).placed ∧
    ((0 : Int) ≤ 6 ∧ (0 : Int) ≤ 0 ∧ (6 : Int) + 4 ≤ 10 ∧ (0 : Int) + 6 ≤ 10) :=
  ⟨by decide,
    layout_bulk_within_bin 10 10 false
      [{ code_point := 1, w := 6, h := 6 }, { code_point := 2, w := 6, h := 4 },
        { code_point := 3, w := 4, h := 6 }]
      { code_point := 3, x := 6, y := 0, w := 4, h := 6, bin := 0 } (by decide)⟩

theorem error_msg_eq (r : Rect) (h : r.code_point < 4294967296) :
    Bin.error_msg r =
      "Error: The glyph " ++ Nat.repr r.code_point ++
        " (UTF-32 code point) didn't fit in an empty bin. The -font-size is too large for the -image-size." := by
  unfold Bin.error_msg to_uint32
  rw [Nat.mod_eq_of_lt h]
  rfl

theorem new_multi_thrown (W H : Int) (items : List Rect) (hW : W ≤ INT_MAX)
    (hpos : ∀ r ∈ items, 0 < r.w) :
    ((Bin.new W H true).layout_bulk items).thrown =
      (items.find? (Rect.oversize W H)).map Bin.error_msg :=
  (multi_loop_spec items (Bin.new W H true) 0 rfl (new_free_within W H true) hW hpos).1

theorem new_multi_placed_length (W H : Int) (items : List Rect) (hW : W ≤ INT_MAX)
    (hpos : ∀ r ∈ items, 0 < r.w) :
    (Bin.placed_loop (Bin.new W H true) 0 items).length =
      (items.takeWhile (fun r => !Rect.oversize W H r)).length :=
  (multi_loop_spec items (Bin.new W H true) 0 rfl (new_free_within W H true) hW hpos).2

/-- C3 (when multi-bin mode throws).  In multi-bin mode, on a freshly constructed `W` by `H`
bin whose width is an `int`, and for items of positive size: `layout_bulk` throws if and only
if some item has `w > W` or `h > H`; and the message thrown for the first such item in input
order (every item in front of it fits the empty bin) contains the decimal value of its code
point (a `char32_t`, so below `2 ^ 32`). -/
theorem layout_bulk_multi_throws_iff (W H : Int) (items : List Rect) (hW : W ≤ INT_MAX)
    (hpos : ∀ r ∈ items, 0 < r.w ∧ 0 < r.h) :
    (((Bin.new W H true).layout_bulk items).thrown ≠ none ↔ ∃ r ∈ items, W < r.w ∨ H < r.h) ∧
    ∀ (pre : List Rect) (r : Rect) (post : List Rect),
      items = pre ++ r :: post → (∀ p ∈ pre, p.w ≤ W ∧ p.h ≤ H) → (W < r.w ∨ H < r.h) →
      r.code_point < 4294967296 →
        ((Bin.new W H true).layout_bulk items).thrown =
          some ("Error: The glyph " ++ Nat.repr r.code_point ++
            " (UTF-32 code point) didn't fit in an empty bin. The -font-size is too large for the -image-size.") := by
  have hthrown := new_multi_thrown W H items hW (fun r hr => (hpos r hr).1)
  constructor
  · rw [hthrown, ne_eq, Option.map_eq_none', List.find?_eq_none]
    constructor
    · intro h
      by_contra hno
      apply h
      intro x hx hov
      exact hno ⟨x, hx, (oversize_iff W H x).1 hov⟩
    · rintro ⟨x, hx, hov⟩ h
      exact h x hx ((oversize_iff W H x).2 hov)
  · intro pre r post hitems hpre hr hcp
    rw [hthrown, hitems, List.find?_append]
    have h1 : pre.find? (Rect.oversize W H) = none := by
      rw [List.find?_eq_none]
      intro x hx hov
      rw [oversize_iff] at hov
      have := hpre x hx
      omega
    rw [h1, Option.none_or, List.find?_cons_of_pos _ ((oversize_iff W H r).2 hr)]
    rw [Option.map_some', error_msg_eq r hcp]

/-- C3 at the 4 by 4 bin with the items 2x2, 5x1 (code point 65) and 9x9: the message names
65, the first of the two oversize items. -/
theorem layout_bulk_multi_throws_iff_witness :
    ((4 : Int) < 5 ∨ (4 : Int) < 1) ∧
    ((Bin.new 4 4 true).layout_bulk
        [{ code_point := 7, w := 2, h := 2 }, { code_point := 65, w := 5, h := 1 },
          { code_point := 9, w := 9, h := 9 }]).thrown =
      some ("Error: The glyph " ++ Nat.repr 65 ++
        " (UTF-32 code point) didn't fit in an empty bin. The -font-size is too large for the -image-size.") :=
  ⟨by decide,
    (layout_bulk_multi_throws_iff 4 4
      [{ code_point := 7, w := 2, h := 2 }, { code_point := 65, w := 5, h := 1 },
        { code_point := 9, w := 9, h := 9 }] (by decide) (by decide)).2
      [{ code_point := 7, w := 2, h := 2 }] { code_point := 65, w := 5, h := 1 }
      [{ code_point := 9, w := 9, h := 9 }] rfl (by decide) (by decide) (by decide)⟩

/-- C5 (frame of `layout_bulk`).  After `layout_bulk` on a freshly constructed bin, in either
mode and whether the call returns or throws, with `k = processed_rectangles()`: the container
keeps its length, `0 <= k <= length`, no element changes its `code_point`, `w` or `h`, every
element at an index below `k` carries a bin index `>= 0`, and every element at an index
`>= k` is exactly the element that was supplied (so its `x`, `y` and `bin` are untouched). -/
theorem layout_bulk_frame (W H : Int) (multiple_bins : Bool) (items : List Rect) :
    ((Bin.new W H multiple_bins).layout_bulk items).container.length = items.length ∧
    0 ≤ ((Bin.new W H multiple_bins).layout_bulk items).bin.processed_rectangles ∧
    ((Bin.new W H multiple_bins).layout_bulk items).bin.processed_rectangles ≤ items.length ∧
    ∀ (i : Nat) (r p : Rect), items[i]? = some r →
      ((Bin.new W H multiple_bins).layout_bulk items).container[i]? = some p →
        p.code_point = r.code_point ∧ p.w = r.w ∧ p.h = r.h ∧
        ((i : Int) < ((Bin.new W H multiple_bins).layout_bulk items).bin.processed_rectangles →
          0 ≤ p.bin) ∧
        (((Bin.new W H multiple_bins).layout_bulk items).bin.processed_rectangles ≤ i →
          p = r) := by
  have hle := placed_loop_length_le items (Bin.new W H multiple_bins) 0
  rw [layout_bulk_processed _ _ rfl, layout_bulk_container]
  generalize hn : Bin.placed_loop (Bin.new W H multiple_bins) 0 items = placed at hle
  refine ⟨?_, by omega, by exact_mod_cast hle, ?_⟩
  · rw [List.length_append, List.length_drop]; omega
  intro i r p hr hp
  by_cases hi : i < placed.length
  · rw [List.getElem?_append_left hi, ← hn] at hp
    obtain ⟨h1, h2, h3, h4⟩ := placed_loop_frame items _ _ i r p hr hp
    refine ⟨h1, h2, h3, fun _ => h4, ?_⟩
    intro hge
    omega
  · rw [List.getElem?_append_right (by omega), List.getElem?_drop] at hp
    have hidx : placed.length + (i - placed.length) = i := by omega
    rw [hidx, hr] at hp
    simp only [Option.some.injEq] at hp
    subst hp
    refine ⟨rfl, rfl, rfl, ?_, fun _ => rfl⟩
    intro hlt
    omega
/-- C5 at the 10 by 10 single bin with the items 6x6, 6x6, 1x1, of which only the first is
placed: the element at index 0 keeps its code point and size and carries bin index 0. -/
theorem layout_bulk_frame_witness :
    ([{ code_point := 1, w := 6, h := 6 }, { code_point := 2, w := 6, h := 6 },
        { code_point := 3, w := 1, h := 1 }] : List Rect)[0]? =
      some { code_point := 1, w := 6, h := 6 } ∧
    ((Bin.new 10 10 false).layout_bulk
        [{ code_point := 1, w := 6, h := 6 }, { code_point := 2, w := 6, h := 6 },
          { code_point := 3, w := 1, h := 1 }]).container[0]? =
      some { code_point := 1, x := 0, y := 0, w := 6, h := 6, bin := 0 } ∧
    (((0 : Nat) : Int) < ((Bin.new 10 10 false).layout_bulk
        [{ code_point := 1, w := 6, h := 6 }, { code_point := 2, w := 6, h := 6 },
          { code_point := 3, w := 1, h := 1 }]).bin.processed_rectangles →
      (0 : Int) ≤ ({ code_point := 1, x := 0, y := 0, w := 6, h := 6, bin := 0 } : Rect).bin) :=
  ⟨by decide, by decide,
    ((layout_bulk_frame 10 10 false
        [{ code_point := 1, w := 6, h := 6 }, { code_point := 2, w := 6, h := 6 },
          { code_point := 3, w := 1, h := 1 }]).2.2.2 0 { code_point := 1, w := 6, h := 6 }
        { code_point := 1, x := 0, y := 0, w := 6, h := 6, bin := 0 }
        (by decide) (by decide)).2.2.2.1⟩

/-- C6 (multi-bin mode places everything that fits the empty bin).  In multi-bin mode, on a
freshly constructed `W` by `H` bin whose width is an `int`, if every item has positive `w` and
`h` with `w <= W` and `h <= H`, then `layout_bulk` returns normally, `processed_rectangles()`
equals the number of items, and every element of the container has been placed (it is among
the placed ones and carries a bin index `>= 0`). -/
theorem layout_bulk_multi_places_all (W H : Int) (items : List Rect) (hW : W ≤ INT_MAX)
    (hfit : ∀ r ∈ items, 0 < r.w ∧ 0 < r.h ∧ r.w ≤ W ∧ r.h ≤ H) :
    ((Bin.new W H true).layout_bulk items).thrown = none ∧
    ((Bin.new W H true).layout_bulk items).bin.processed_rectangles = items.length ∧
    ((Bin.new W H true).layout_bulk items).placed.length = items.length ∧
    ∀ p ∈ ((Bin.new W H true).layout_bulk items).container, 0 ≤ p.bin := by
  have hspec := multi_loop_spec items (Bin.new W H true) 0 rfl (new_free_within W H true) hW
    (fun r hr => (hfit r hr).1)
  have hnot : ∀ r ∈ items, (!Rect.oversize W H r) = true := by
    intro r hr
    have := hfit r hr
    rw [Bool.not_eq_true', oversize_false_iff]
    omega
  have hlen : (Bin.placed_loop (Bin.new W H true) 0 items).length = items.length := by
    rw [hspec.2]
    exact congrArg List.length (takeWhile_eq_self _ items hnot)
  refine ⟨?_, ?_, ?_, ?_⟩
  · show (Bin.layout_loop (Bin.new W H true) 0 items).thrown = none
    rw [hspec.1, Option.map_eq_none', List.find?_eq_none]
    intro r hr hov
    have := hnot r hr
    have hov2 : Rect.oversize W H r = true := hov
    rw [hov2] at this
    exact absurd this (by decide)
  · rw [layout_bulk_processed _ _ rfl, hlen]
  · rw [layout_bulk_placed _ _ rfl, hlen]
  · intro p hp
    rw [layout_bulk_container, hlen, List.drop_length, List.append_nil] at hp
    obtain ⟨i, hi, hpi⟩ := List.getElem_of_mem hp
    have hi2 : i < items.length := by rw [← hlen]; exact hi
    have hp1 : (Bin.placed_loop (Bin.new W H true) 0 items)[i]? = some p := by
      rw [List.getElem?_eq_getElem hi, hpi]
    exact (placed_loop_frame items _ _ i items[i] p (List.getElem?_eq_getElem hi2) hp1).2.2.2


/-- C6 at the 8 by 8 bin with two 5x5 items: no throw, two items processed. -/
theorem layout_bulk_multi_places_all_witness :
    (∀ r ∈ ([{ code_point := 1, w := 5, h := 5 }, { code_point := 2, w := 5, h := 5 }] :
        List Rect), 0 < r.w ∧ 0 < r.h ∧ r.w ≤ 8 ∧ r.h ≤ 8) ∧
    ((Bin.new 8 8 true).layout_bulk
        [{ code_point := 1, w := 5, h := 5 }, { code_point := 2, w := 5, h := 5 }]).thrown =
      none ∧
    ((Bin.new 8 8 true).layout_bulk
        [{ code_point := 1, w := 5, h := 5 },
          { code_point := 2, w := 5, h := 5 }]).bin.processed_rectangles = (2 : Nat) :=
  ⟨by decide,
    (layout_bulk_multi_places_all 8 8
      [{ code_point := 1, w := 5, h := 5 }, { code_point := 2, w := 5, h := 5 }]
      (by decide) (by decide)).1,
    (layout_bulk_multi_places_all 8 8
      [{ code_point := 1, w := 5, h := 5 }, { code_point := 2, w := 5, h := 5 }]
      (by decide) (by decide)).2.1⟩

/-- C9 (multi-bin continuation).  In multi-bin mode, after `layout_bulk` on a freshly
constructed bin, the bin indices of the placed items in input order start at 0, each one is
equal to its predecessor's or exactly one greater, and an item whose bin index is one greater
than its predecessor's sits at (0, 0), the corner of the single free rectangle that `reset`
leaves.  This holds for every input, in particular for items of positive size. -/
theorem layout_bulk_bin_indices (W H : Int) (items : List Rect) :
    (∀ p, ((Bin.new W H true).layout_bulk items).placed[0]? = some p → p.bin = 0) ∧
    ∀ (i : Nat) (p q : Rect),
      ((Bin.new W H true).layout_bulk items).placed[i]? = some p →
      ((Bin.new W H true).layout_bulk items).placed[i + 1]? = some q →
        q.bin = p.bin ∨ (q.bin = p.bin + 1 ∧ q.x = 0 ∧ q.y = 0) := by
  rw [layout_bulk_placed _ _ rfl]
  exact ⟨fun p hp => placed_loop_head_fresh items _ 0 p rfl hp,
    fun i p q hp hq => placed_loop_step items _ 0 i p q hp hq⟩

/-- C9 at the 8 by 8 bin with two 5x5 items: the second one opens bin 1 and sits at (0, 0). -/
theorem layout_bulk_bin_indices_witness :
    ((Bin.new 8 8 true).layout_bulk
        [{ code_point := 1, w := 5, h := 5 }, { code_point := 2, w := 5, h := 5 }]).placed[0]? =
      some { code_point := 1, x := 0, y := 0, w := 5, h := 5, bin := 0 } ∧
    ((Bin.new 8 8 true).layout_bulk
        [{ code_point := 1, w := 5, h := 5 }, { code_point := 2, w := 5, h := 5 }]).placed[0 + 1]? =
      some { code_point := 2, x := 0, y := 0, w := 5, h := 5, bin := 1 } ∧
    ((1 : Int) = 0 ∨ ((1 : Int) = 0 + 1 ∧ (0 : Int) = 0 ∧ (0 : Int) = 0)) :=
  ⟨by decide, by decide,
    (layout_bulk_bin_indices 8 8
      [{ code_point := 1, w := 5, h := 5 }, { code_point := 2, w := 5, h := 5 }]).2 0
      { code_point := 1, x := 0, y := 0, w := 5, h := 5, bin := 0 }
      { code_point := 2, x := 0, y := 0, w := 5, h := 5, bin := 1 } (by decide) (by decide)⟩

/-- C4 (single-bin mode stops at the first item that finds no free rectangle).  In single-bin
mode `layout_bulk` on a freshly constructed bin never throws, whatever the items are.  With
`k = processed_rectangles()`: `0 <= k <= length`; the elements from index `k` on are the
ones supplied (no later item is placed, even one that would fit); the packer the call leaves
is the packer after placing exactly the first `k` items; for every `i < k` the run on the
first `i` items places all `i` of them and leaves a free rectangle that fits item `i`; and,
for a bin whose width is an `int` and items of positive size, item `k` (when there is one)
fits no free rectangle of the packer the call stopped on.  Hence `k` is the index of the first
item that fits no current free rectangle, or the number of items. -/
theorem layout_bulk_single_stops (W H : Int) (items : List Rect) :
    ((Bin.new W H false).layout_bulk items).thrown = none ∧
    0 ≤ ((Bin.new W H false).layout_bulk items).bin.processed_rectangles ∧
    ((Bin.new W H false).layout_bulk items).bin.processed_rectangles ≤ items.length ∧
    ((Bin.new W H false).layout_bulk items).unplaced =
      items.drop ((Bin.new W H false).layout_bulk items).bin.processed_rectangles.toNat ∧
    ((Bin.new W H false).layout_bulk items).bin =
      ((Bin.new W H false).layout_bulk
        (items.take ((Bin.new W H false).layout_bulk items).bin.processed_rectangles.toNat)).bin ∧
    (∀ (i : Nat) (r : Rect),
      i < ((Bin.new W H false).layout_bulk items).bin.processed_rectangles.toNat →
      items[i]? = some r →
        ((Bin.new W H false).layout_bulk (items.take i)).bin.processed_rectangles = i ∧
        ∃ f ∈ ((Bin.new W H false).layout_bulk (items.take i)).bin.m_free_rectangles,
          Bin.fits f r = true) ∧
    (W ≤ INT_MAX → (∀ r ∈ items, 0 < r.w ∧ 0 < r.h) →
      ∀ r, items[((Bin.new W H false).layout_bulk items).bin.processed_rectangles.toNat]? =
          some r →
        ∀ f ∈ ((Bin.new W H false).layout_bulk items).bin.m_free_rectangles,
          Bin.fits f r = false) := by
  have hle := placed_loop_length_le items (Bin.new W H false) 0
  have hpre := fun i => single_loop_prefix items (Bin.new W H false) 0 i rfl
  rw [layout_bulk_unplaced _ _ rfl, processed_toNat _ _ rfl, layout_bulk_processed _ _ rfl]
  generalize hn : (Bin.placed_loop (Bin.new W H false) 0 items).length = n at hle hpre
  refine ⟨single_loop_thrown items _ 0 rfl, by omega, by exact_mod_cast hle, rfl,
    (hpre n (le_refl n)).2.2 rfl, ?_, ?_⟩
  · intro i r hi hr
    obtain ⟨h1, h2, _⟩ := hpre i (le_of_lt hi)
    refine ⟨?_, (h2 r hr).1 hi⟩
    unfold Bin.layout_bulk Bin.processed_rectangles
    rw [h1]
    simp [Bin.new]
  · intro hW hpos r hr f hf
    have hnone := ((hpre n (le_refl n)).2.1 r hr).2 rfl
    have hbin := (hpre n (le_refl n)).2.2 rfl
    unfold Bin.layout_bulk at hf
    rw [hbin] at hf
    obtain ⟨hw1, hw2, hw3⟩ := layout_loop_free_within (items.take n) (Bin.new W H false) 0
      (new_free_within W H false)
    have hr_mem : r ∈ items := List.getElem?_mem hr
    rw [find_best_none_iff _ r _ _ hw1 (by rw [hw2]; exact hW) (hpos r hr_mem).1] at hnone
    exact hnone f hf

/-- C4 at the 10 by 10 single bin with the items 6x6, 6x6, 1x1: one item is processed, and
the second 6x6 item fits none of the free rectangles left. -/
theorem layout_bulk_single_stops_witness :
    INT_MAX ≥ 10 ∧
    (∀ r ∈ ([{ code_point := 1, w := 6, h := 6 }, { code_point := 2, w := 6, h := 6 },
        { code_point := 3, w := 1, h := 1 }] : List Rect), 0 < r.w ∧ 0 < r.h) ∧
    ((Bin.new 10 10 false).layout_bulk
        [{ code_point := 1, w := 6, h := 6 }, { code_point := 2, w := 6, h := 6 },
          { code_point := 3, w := 1, h := 1 }]).bin.processed_rectangles = 1 ∧
    ∀ f ∈ ((Bin.new 10 10 false).layout_bulk
        [{ code_point := 1, w := 6, h := 6 }, { code_point := 2, w := 6, h := 6 },
          { code_point := 3, w := 1, h := 1 }]).bin.m_free_rectangles,
      Bin.fits f { code_point := 2, w := 6, h := 6 } = false :=
  ⟨by decide, by decide, by decide,
    (layout_bulk_single_stops 10 10
      [{ code_point := 1, w := 6, h := 6 }, { code_point := 2, w := 6, h := 6 },
        { code_point := 3, w := 1, h := 1 }]).2.2.2.2.2.2 (by decide) (by decide)
      { code_point := 2, w := 6, h := 6 } (by decide)⟩

/-- C7 (Best Area Fit).  For every free list whose regions have an area within `int` range
and every item without a negative side: `find_best_free_rectangle` returns the end iterator
if and only if no free region fits the item (`item.w <= region.w` and `item.h <= region.h`);
otherwise it returns a region of the list that fits the item and whose leftover area
`region.area - item.area` is minimal among all regions that fit. -/
theorem find_best_free_rectangle_best_area (free_rectangles : List Rect) (item : Rect)
    (hitem : 0 ≤ item.w ∧ 0 ≤ item.h)
    (harea : ∀ f ∈ free_rectangles, f.w * f.h ≤ INT_MAX) :
    (Bin.find_best_free_rectangle free_rectangles item = none ↔
      ∀ f ∈ free_rectangles, ¬ (item.w ≤ f.w ∧ item.h ≤ f.h)) ∧
    ∀ g, Bin.find_best_free_rectangle free_rectangles item = some g →
      g ∈ free_rectangles ∧ (item.w ≤ g.w ∧ item.h ≤ g.h) ∧
      ∀ f ∈ free_rectangles, item.w ≤ f.w ∧ item.h ≤ f.h →
        g.w * g.h - item.w * item.h ≤ f.w * f.h - item.w * item.h := by
  constructor
  · constructor
    · intro hnone f hf hfit
      exact find_best_loop_complete item free_rectangles
        ⟨f, hf, (fits_iff f item).2 hfit, short_side_lt_of_area f item hitem (harea f hf)⟩ hnone
    · intro hall
      cases h : Bin.find_best_free_rectangle free_rectangles item with
      | none => rfl
      | some g =>
        have := find_best_sound _ _ _ h
        exact absurd ((fits_iff g item).1 this.2) (hall g this.1)
  · intro g hg
    obtain ⟨hmem, hfit⟩ := find_best_sound _ _ _ hg
    refine ⟨hmem, (fits_iff g item).1 hfit, ?_⟩
    intro f hf hffit
    have hffit2 := (fits_iff f item).2 hffit
    have := (find_best_loop_least item free_rectangles _ _ _ g hg (by simp)).2 f hf hffit2
    rw [unused_area_exact g item hitem hfit (harea g hmem),
      unused_area_exact f item hitem hffit2 (harea f hf)] at this
    exact this

/-- C7 at the free list (0,5,10,5), (5,0,3,4) and a 2x2 item: the 3x4 region is returned, and
it leaves 8, less than the 46 the other region would leave. -/
theorem find_best_free_rectangle_best_area_witness :
    ((0 : Int) ≤ 2 ∧ (0 : Int) ≤ 2) ∧
    (∀ f ∈ ([{ x := 0, y := 5, w := 10, h := 5 }, { x := 5, y := 0, w := 3, h := 4 }] :
        List Rect), f.w * f.h ≤ INT_MAX) ∧
    Bin.find_best_free_rectangle
        [{ x := 0, y := 5, w := 10, h := 5 }, { x := 5, y := 0, w := 3, h := 4 }]
        { code_point := 1, w := 2, h := 2 } = some { x := 5, y := 0, w := 3, h := 4 } ∧
    (3 : Int) * 4 - 2 * 2 ≤ 10 * 5 - 2 * 2 :=
  ⟨by decide, by decide, by decide,
    ((find_best_free_rectangle_best_area
      [{ x := 0, y := 5, w := 10, h := 5 }, { x := 5, y := 0, w := 3, h := 4 }]
      { code_point := 1, w := 2, h := 2 } (by decide) (by decide)).2
      { x := 5, y := 0, w := 3, h := 4 } (by decide)).2.2
      { x := 0, y := 5, w := 10, h := 5 } (by decide) (by decide)⟩

/-- C8 (Best Short Side Fit tie-break), evaluated where the code departs from it.  After the
5x5 item is placed in a fresh 10 by 10 bin the free list is (0,5,10,5), (5,0,5,10).  Both
regions fit a 1x5 item and both leave area 45; the first leaves 0 on its shorter side, the
second leaves 4.  The search returns the second one, and `layout_bulk` places the 1x5 item
at (5,0): `bssf_score` is still `INT_MAX` when the tie is examined, because the branch that
records a new best area does not record the short side of that region. -/
theorem find_best_free_rectangle_tie_break_defect :
    ((Bin.new 10 10 false).layout_bulk [{ code_point := 1, w := 5, h := 5 }]).bin.m_free_rectangles =
      [{ x := 0, y := 5, w := 10, h := 5 }, { x := 5, y := 0, w := 5, h := 10 }] ∧
    Bin.fits { x := 0, y := 5, w := 10, h := 5 } { code_point := 2, w := 1, h := 5 } = true ∧
    Bin.fits { x := 5, y := 0, w := 5, h := 10 } { code_point := 2, w := 1, h := 5 } = true ∧
    (10 : Int) * 5 - 1 * 5 = 5 * 10 - 1 * 5 ∧
    min ((10 : Int) - 1) (5 - 5) = 0 ∧
    min ((5 : Int) - 1) (10 - 5) = 4 ∧
    Bin.find_best_free_rectangle
        [{ x := 0, y := 5, w := 10, h := 5 }, { x := 5, y := 0, w := 5, h := 10 }]
        { code_point := 2, w := 1, h := 5 } = some { x := 5, y := 0, w := 5, h := 10 } ∧
    ((Bin.new 10 10 false).layout_bulk
        [{ code_point := 1, w := 5, h := 5 }, { code_point := 2, w := 1, h := 5 }]).container =
      [{ code_point := 1, x := 0, y := 0, w := 5, h := 5, bin := 0 },
        { code_point := 2, x := 5, y := 0, w := 1, h := 5, bin := 0 }] := by
  decide

/-- C10, as stated, fails in single-bin mode: on the 4 by 4 bin the item (5, 5, id 1) fits
no empty bin, yet `layout_bulk` returns normally; the item stays as supplied and
`processed_rectangles()` is 0. -/
theorem layout_bulk_single_oversize_returns :
    Rect.oversize 4 4 { code_point := 1, w := 5, h := 5 } = true ∧
    ((Bin.new 4 4 false).layout_bulk [{ code_point := 1, w := 5, h := 5 }]).thrown = none ∧
    ((Bin.new 4 4 false).layout_bulk [{ code_point := 1, w := 5, h := 5 }]).container =
      [{ code_point := 1, w := 5, h := 5 }] ∧
    ((Bin.new 4 4 false).layout_bulk
      [{ code_point := 1, w := 5, h := 5 }]).bin.processed_rectangles = 0 := by
  decide

/-- C10, amended to multi-bin mode.  On a freshly constructed `W` by `H` bin in multi-bin mode
(the width an `int`, the items of positive size), when an item does not fit the empty bin
(`w > W` or `h > H`) and every item in front of it does, `layout_bulk` throws the message
that names that item's code point, and `processed_rectangles()` is the number of items in
front of it.  In particular (scenario B) the 4 by 4 bin with the single item (5, 5, id 1)
fails naming 1 with `processed_rectangles() == 0`. -/
theorem layout_bulk_multi_oversize_fatal (W H : Int) (pre : List Rect) (r : Rect)
    (post : List Rect) (hW : W ≤ INT_MAX) (hpos : ∀ p ∈ pre ++ r :: post, 0 < p.w ∧ 0 < p.h)
    (hpre : ∀ p ∈ pre, p.w ≤ W ∧ p.h ≤ H) (hr : W < r.w ∨ H < r.h) :
    (((Bin.new W H true).layout_bulk (pre ++ r :: post)).thrown = some (Bin.error_msg r) ∧
      ((Bin.new W H true).layout_bulk (pre ++ r :: post)).bin.processed_rectangles =
        pre.length) ∧
    (((Bin.new 4 4 true).layout_bulk [{ code_point := 1, w := 5, h := 5 }]).thrown =
        some "Error: The glyph 1 (UTF-32 code point) didn't fit in an empty bin. The -font-size is too large for the -image-size." ∧
      ((Bin.new 4 4 true).layout_bulk
        [{ code_point := 1, w := 5, h := 5 }]).bin.processed_rectangles = 0) := by
  refine ⟨?_, by decide⟩
  have hov : Rect.oversize W H r = true := (oversize_iff W H r).2 hr
  have hnot : ∀ p ∈ pre, (!Rect.oversize W H p) = true := by
    intro p hp
    have := hpre p hp
    rw [Bool.not_eq_true', oversize_false_iff]
    exact this
  constructor
  · rw [new_multi_thrown W H _ hW (fun p hp => (hpos p hp).1), List.find?_append]
    have h1 : pre.find? (Rect.oversize W H) = none := by
      rw [List.find?_eq_none]
      intro x hx hx2
      have := hnot x hx
      rw [hx2] at this
      exact absurd this (by decide)
    rw [h1, Option.none_or, List.find?_cons_of_pos _ hov, Option.map_some']
  · rw [layout_bulk_processed _ _ rfl,
      new_multi_placed_length W H _ hW (fun p hp => (hpos p hp).1),
      List.takeWhile_append_of_pos hnot, List.takeWhile_cons_of_neg (by rw [hov]; decide),
      List.append_nil]

/-- C10 (amended) at the 4 by 4 bin in multi-bin mode with the items 2x2 (id 7) and 5x1
(id 65): the call throws the message for 65 after one placement. -/
theorem layout_bulk_multi_oversize_fatal_witness :
    (∀ p ∈ ([{ code_point := 7, w := 2, h := 2 }] ++
        { code_point := 65, w := 5, h := 1 } :: [] : List Rect), 0 < p.w ∧ 0 < p.h) ∧
    (∀ p ∈ ([{ code_point := 7, w := 2, h := 2 }] : List Rect), p.w ≤ 4 ∧ p.h ≤ 4) ∧
    ((4 : Int) < 5 ∨ (4 : Int) < 1) ∧
    ((Bin.new 4 4 true).layout_bulk
        ([{ code_point := 7, w := 2, h := 2 }] ++
          { code_point := 65, w := 5, h := 1 } :: [])).thrown =
      some (Bin.error_msg { code_point := 65, w := 5, h := 1 }) :=
  ⟨by decide, by decide, by decide,
    (layout_bulk_multi_oversize_fatal 4 4 [{ code_point := 7, w := 2, h := 2 }]
      { code_point := 65, w := 5, h := 1 } [] (by decide) (by decide) (by decide)
      (by decide)).1.1⟩

/-! ## The processed count across calls -/

theorem layout_loop_thrown_lt (items : List Rect) :
    ∀ (b : Bin) (bi : Int), (Bin.layout_loop b bi items).thrown ≠ none →
      (Bin.placed_loop b bi items).length < items.length := by
  induction items with
  | nil => intro b bi h; simp [Bin.layout_loop] at h
  | cons r rest ih =>
    intro b bi h
    cases hc : b.choose bi r with
    | none => simp [Bin.placed_loop, hc]
    | some c =>
      obtain ⟨it, b1, bi1⟩ := c
      rw [layout_loop_cons_some _ _ _ _ _ _ _ hc] at h
      simp only [Bin.placed_loop, hc, List.length_cons]
      have := ih _ _ h
      omega

theorem layout_loop_thrown_item (items : List Rect) :
    ∀ (b : Bin) (bi : Int), (Bin.layout_loop b bi items).thrown ≠ none →
      ∃ r, items[(Bin.placed_loop b bi items).length]? = some r ∧
        (Bin.layout_loop b bi items).thrown = some (Bin.error_msg r) := by
  induction items with
  | nil => intro b bi h; simp [Bin.layout_loop] at h
  | cons r rest ih =>
    intro b bi h
    cases hc : b.choose bi r with
    | none =>
      rw [layout_loop_cons_none _ _ _ _ hc] at h ⊢
      refine ⟨r, by simp [Bin.placed_loop, hc], ?_⟩
      cases hm : b.m_multiple_bins
      · simp [hm] at h
      · simp
    | some c =>
      obtain ⟨it, b1, bi1⟩ := c
      rw [layout_loop_cons_some _ _ _ _ _ _ _ hc] at h ⊢
      obtain ⟨r0, h1, h2⟩ := ih _ _ h
      exact ⟨r0, by simpa [Bin.placed_loop, hc] using h1, h2⟩

theorem reset_processed (b : Bin) :
    b.reset.processed_rectangles = b.processed_rectangles := rfl

theorem layout_bulk_processed_add (b : Bin) (items : List Rect) :
    (b.layout_bulk items).bin.processed_rectangles =
      b.processed_rectangles + ((Bin.placed_loop b 0 items).length : Int) :=
  layout_loop_processed items b 0

theorem call_processed_le (b : Bin) (c : Call) :
    b.processed_rectangles ≤ (b.call c).processed_rectangles := by
  cases c with
  | layout_bulk container =>
    simp only [Bin.call]
    rw [layout_bulk_processed_add]
    omega
  | reset => exact le_of_eq (reset_processed b).symm

theorem calls_processed_le (cs : List Call) :
    ∀ b : Bin, b.processed_rectangles ≤ (b.calls cs).processed_rectangles := by
  induction cs with
  | nil => intro b; exact le_refl _
  | cons c rest ih =>
    intro b
    exact le_trans (call_processed_le b c) (ih (b.call c))

/-- C11 (monotonicity of the processed count).  `processed_rectangles()` is 0 on a freshly
constructed bin; it never decreases under a sequence of `layout_bulk` and `reset` calls,
whatever the packer was before; `reset` leaves it as it is; and a call of `layout_bulk`, on
any packer, raises it by exactly the number of items that call placed, which are the
elements in front of the container, every later element being left as supplied.  When the
call throws, the item the message names is the first element that was not placed: it adds
nothing to the count and is left as supplied. -/
theorem processed_rectangles_monotone (W H : Int) (multiple_bins : Bool) :
    (Bin.new W H multiple_bins).processed_rectangles = 0 ∧
    (∀ (b : Bin) (calls : List Call),
      b.processed_rectangles ≤ (b.calls calls).processed_rectangles) ∧
    (∀ b : Bin, b.reset.processed_rectangles = b.processed_rectangles) ∧
    ∀ (b : Bin) (items : List Rect),
      (b.layout_bulk items).bin.processed_rectangles =
        b.processed_rectangles + ((b.layout_bulk items).placed_after b).length ∧
      (b.layout_bulk items).container =
        (b.layout_bulk items).placed_after b ++
          items.drop ((b.layout_bulk items).placed_after b).length ∧
      (b.layout_bulk items).placed_after b = Bin.placed_loop b 0 items ∧
      ((b.layout_bulk items).thrown ≠ none →
        ∃ r, items[((b.layout_bulk items).placed_after b).length]? = some r ∧
          (b.layout_bulk items).thrown = some (Bin.error_msg r) ∧
          (b.layout_bulk items).container[((b.layout_bulk items).placed_after b).length]? =
            some r) := by
  refine ⟨rfl, fun b cs => calls_processed_le cs b, fun b => rfl, ?_⟩
  intro b items
  have hpl : (b.layout_bulk items).placed_after b = Bin.placed_loop b 0 items := by
    unfold Layout.placed_after
    rw [layout_bulk_processed_add, layout_bulk_container]
    simp
  rw [hpl]
  refine ⟨layout_bulk_processed_add b items, layout_bulk_container b items, rfl, ?_⟩
  intro hthrown
  obtain ⟨r, h1, h2⟩ := layout_loop_thrown_item items b 0 hthrown
  refine ⟨r, h1, h2, ?_⟩
  rw [layout_bulk_container, List.getElem?_append_right (le_refl _), List.getElem?_drop]
  simpa using h1

/-- C11 at the 4 by 4 bin in multi-bin mode with the items 2x2 (id 7) and 5x1 (id 65): the
call throws, one item has been placed, and the element at index 1 is the item the message
names, left as supplied. -/
theorem processed_rectangles_monotone_witness :
    ((Bin.new 4 4 true).layout_bulk
        [{ code_point := 7, w := 2, h := 2 }, { code_point := 65, w := 5, h := 1 }]).thrown ≠
      none ∧
    ∃ r, ([{ code_point := 7, w := 2, h := 2 }, { code_point := 65, w := 5, h := 1 }] :
          List Rect)[(((Bin.new 4 4 true).layout_bulk
            [{ code_point := 7, w := 2, h := 2 },
              { code_point := 65, w := 5, h := 1 }]).placed_after (Bin.new 4 4 true)).length]? =
        some r ∧
      ((Bin.new 4 4 true).layout_bulk
          [{ code_point := 7, w := 2, h := 2 }, { code_point := 65, w := 5, h := 1 }]).thrown =
        some (Bin.error_msg r) ∧
      ((Bin.new 4 4 true).layout_bulk
          [{ code_point := 7, w := 2, h := 2 },
            { code_point := 65, w := 5, h := 1 }]).container[(((Bin.new 4 4 true).layout_bulk
            [{ code_point := 7, w := 2, h := 2 },
              { code_point := 65, w := 5, h := 1 }]).placed_after (Bin.new 4 4 true)).length]? =
        some r :=
  ⟨by decide,
    ((processed_rectangles_monotone 4 4 true).2.2.2 (Bin.new 4 4 true)
      [{ code_point := 7, w := 2, h := 2 }, { code_point := 65, w := 5, h := 1 }]).2.2.2
      (by decide)⟩

/-! ## The concrete scenarios -/

/-- C14 (scenario A).  On the 10 by 10 bin in single-bin mode the items (6,6,id 1),
(6,4,id 2), (4,6,id 3), in that order, are all placed in bin 0: `processed_rectangles()` is 3,
item 1 sits at (0,0), item 2 at (0,6), item 3 at (6,0), the call does not throw, the three
rectangles do not overlap one another and lie inside the bin. -/
theorem scenario_a_single_bin :
    ((Bin.new 10 10 false).layout_bulk
        [{ code_point := 1, w := 6, h := 6 }, { code_point := 2, w := 6, h := 4 },
          { code_point := 3, w := 4, h := 6 }]).thrown = none ∧
    ((Bin.new 10 10 false).layout_bulk
        [{ code_point := 1, w := 6, h := 6 }, { code_point := 2, w := 6, h := 4 },
          { code_point := 3, w := 4, h := 6 }]).bin.processed_rectangles = 3 ∧
    ((Bin.new 10 10 false).layout_bulk
        [{ code_point := 1, w := 6, h := 6 }, { code_point := 2, w := 6, h := 4 },
          { code_point := 3, w := 4, h := 6 }]).container =
      [{ code_point := 1, x := 0, y := 0, w := 6, h := 6, bin := 0 },
        { code_point := 2, x := 0, y := 6, w := 6, h := 4, bin := 0 },
        { code_point := 3, x := 6, y := 0, w := 4, h := 6, bin := 0 }] ∧
    List.Pairwise (fun p q => Bin.overlaps p q = false ∧ Bin.overlaps q p = false)
      ((Bin.new 10 10 false).layout_bulk
        [{ code_point := 1, w := 6, h := 6 }, { code_point := 2, w := 6, h := 4 },
          { code_point := 3, w := 4, h := 6 }]).container ∧
    ∀ p ∈ ((Bin.new 10 10 false).layout_bulk
        [{ code_point := 1, w := 6, h := 6 }, { code_point := 2, w := 6, h := 4 },
          { code_point := 3, w := 4, h := 6 }]).container,
      p.bin = 0 ∧ 0 ≤ p.x ∧ 0 ≤ p.y ∧ p.x + p.w ≤ 10 ∧ p.y + p.h ≤ 10 := by
  decide

/-- C15 (scenario C).  On the 8 by 8 bin in multi-bin mode six 5x5 items with ids 1 to 6 are
placed one per bin: the call returns normally, item `k` sits at (0,0) in bin `k - 1`, and
`processed_rectangles()` is 6. -/
theorem scenario_c_multi_bin :
    ((Bin.new 8 8 true).layout_bulk
        [{ code_point := 1, w := 5, h := 5 }, { code_point := 2, w := 5, h := 5 },
          { code_point := 3, w := 5, h := 5 }, { code_point := 4, w := 5, h := 5 },
          { code_point := 5, w := 5, h := 5 }, { code_point := 6, w := 5, h := 5 }]).thrown =
      none ∧
    ((Bin.new 8 8 true).layout_bulk
        [{ code_point := 1, w := 5, h := 5 }, { code_point := 2, w := 5, h := 5 },
          { code_point := 3, w := 5, h := 5 }, { code_point := 4, w := 5, h := 5 },
          { code_point := 5, w := 5, h := 5 },
          { code_point := 6, w := 5, h := 5 }]).bin.processed_rectangles = 6 ∧
    ((Bin.new 8 8 true).layout_bulk
        [{ code_point := 1, w := 5, h := 5 }, { code_point := 2, w := 5, h := 5 },
          { code_point := 3, w := 5, h := 5 }, { code_point := 4, w := 5, h := 5 },
          { code_point := 5, w := 5, h := 5 }, { code_point := 6, w := 5, h := 5 }]).container =
      [{ code_point := 1, x := 0, y := 0, w := 5, h := 5, bin := 0 },
        { code_point := 2, x := 0, y := 0, w := 5, h := 5, bin := 1 },
        { code_point := 3, x := 0, y := 0, w := 5, h := 5, bin := 2 },
        { code_point := 4, x := 0, y := 0, w := 5, h := 5, bin := 3 },
        { code_point := 5, x := 0, y := 0, w := 5, h := 5, bin := 4 },
        { code_point := 6, x := 0, y := 0, w := 5, h := 5, bin := 5 }] := by
  decide

/-! ## Independence of the processed count, the identifiers and the supplied positions -/

theorem choose_set_processed (b : Bin) (bi : Int) (r : Rect) (n : Int) :
    Bin.choose { b with m_processed_rectangles := n } bi r =
      (b.choose bi r).map
        (fun c => (c.1, { c.2.1 with m_processed_rectangles := n }, c.2.2)) := by
  unfold Bin.choose
  simp only [Bin.reset]
  cases Bin.find_best_free_rectangle b.m_free_rectangles r with
  | some it => rfl
  | none =>
    simp only
    cases b.m_multiple_bins with
    | false => rfl
    | true =>
      simp only [Bool.not_true, Bool.false_eq_true, ↓reduceIte]
      cases Bin.find_best_free_rectangle [{ w := b.m_width, h := b.m_height }] r <;> rfl

theorem place_set_processed (b : Bin) (r : Rect) (n : Int) :
    Bin.place { b with m_processed_rectangles := n } r =
      { b.place r with m_processed_rectangles := n + 1 } := rfl

/-- The loop does not read the processed count: with another count in the packer it writes
the same container, ends the same way and leaves the same free list. -/
theorem layout_loop_set_processed (items : List Rect) :
    ∀ (b : Bin) (bi : Int) (n : Int),
      (Bin.layout_loop { b with m_processed_rectangles := n } bi items).container =
          (Bin.layout_loop b bi items).container ∧
        (Bin.layout_loop { b with m_processed_rectangles := n } bi items).thrown =
          (Bin.layout_loop b bi items).thrown ∧
        (Bin.layout_loop { b with m_processed_rectangles := n } bi items).bin.m_free_rectangles =
          (Bin.layout_loop b bi items).bin.m_free_rectangles := by
  induction items with
  | nil => intro b bi n; simp [Bin.layout_loop]
  | cons r rest ih =>
    intro b bi n
    have hc := choose_set_processed b bi r n
    cases h : b.choose bi r with
    | none =>
      rw [h, Option.map_none'] at hc
      rw [layout_loop_cons_none _ _ _ _ hc, layout_loop_cons_none _ _ _ _ h]
      cases b.m_multiple_bins <;> simp [Bin.reset]
    | some c =>
      obtain ⟨it, b1, bi1⟩ := c
      rw [h, Option.map_some'] at hc
      rw [layout_loop_cons_some _ _ _ _ _ _ _ hc, layout_loop_cons_some _ _ _ _ _ _ _ h]
      simp only [place_set_processed]
      obtain ⟨h1, h2, h3⟩ := ih (b1.place (Bin.assign r it bi1)) bi1 (n + 1)
      exact ⟨by rw [h1], h2, h3⟩

theorem reset_eq_new (b : Bin) :
    b.reset =
      { Bin.new b.m_width b.m_height b.m_multiple_bins with
        m_processed_rectangles := b.m_processed_rectangles } := rfl

/-- C17 (frame of `reset`).  Whatever the packer was before, `reset` leaves the free list
equal to the single region (0, 0, width, height) and leaves the processed count, the
dimensions and the mode as they were; consequently a `layout_bulk` call that follows `reset`
writes the same container (the same `x`, `y` and bin index for every item), ends the same
way and leaves the same free list as the same call on a freshly constructed bin of that size
and mode. -/
theorem reset_restores_fresh_free_list (b : Bin) (items : List Rect) :
    b.reset.m_free_rectangles =
      [{ code_point := 0, x := 0, y := 0, w := b.m_width, h := b.m_height, bin := -1 }] ∧
    b.reset.processed_rectangles = b.processed_rectangles ∧
    b.reset.m_width = b.m_width ∧ b.reset.m_height = b.m_height ∧
    b.reset.m_multiple_bins = b.m_multiple_bins ∧
    (b.reset.layout_bulk items).container =
      ((Bin.new b.m_width b.m_height b.m_multiple_bins).layout_bulk items).container ∧
    (b.reset.layout_bulk items).thrown =
      ((Bin.new b.m_width b.m_height b.m_multiple_bins).layout_bulk items).thrown ∧
    (b.reset.layout_bulk items).bin.m_free_rectangles =
      ((Bin.new b.m_width b.m_height b.m_multiple_bins).layout_bulk items).bin.m_free_rectangles := by
  refine ⟨rfl, rfl, rfl, rfl, rfl, ?_⟩
  rw [reset_eq_new]
  exact layout_loop_set_processed items _ 0 _

theorem find_best_loop_congr (o o' : Rect) (hw : o.w = o'.w) (hh : o.h = o'.h)
    (l : List Rect) :
    ∀ (baf bssf : Int) (res : Option Rect),
      Bin.find_best_loop o l baf bssf res = Bin.find_best_loop o' l baf bssf res := by
  induction l with
  | nil => intro baf bssf res; rfl
  | cons f rest ih =>
    intro baf bssf res
    have hfit : Bin.fits f o = Bin.fits f o' := by simp [Bin.fits, hw, hh]
    have harea : o.area = o'.area := by simp [Rect.area, hw, hh]
    rw [Bin.find_best_loop, Bin.find_best_loop, hfit, harea, hw, hh]
    simp only [ih]

theorem find_best_congr (l : List Rect) (o o' : Rect) (h : o.same_size o') :
    Bin.find_best_free_rectangle l o = Bin.find_best_free_rectangle l o' :=
  find_best_loop_congr o o' h.1 h.2 l _ _ _

theorem choose_congr (b : Bin) (bi : Int) (r r' : Rect) (h : r.same_size r') :
    b.choose bi r = b.choose bi r' := by
  unfold Bin.choose
  rw [find_best_congr _ r r' h, find_best_congr _ r r' h]

theorem split_free_congr (r r' : Rect) (hx : r.x = r'.x) (hy : r.y = r'.y) (hw : r.w = r'.w)
    (hh : r.h = r'.h) (l : List Rect) : Bin.split_free r l = Bin.split_free r' l := by
  induction l with
  | nil => rfl
  | cons f rest ih =>
    have hov : Bin.overlaps f r = Bin.overlaps f r' := by simp [Bin.overlaps, hx, hy, hw, hh]
    have hnew : Bin.compute_new_free_rectangles f r = Bin.compute_new_free_rectangles f r' := by
      simp [Bin.compute_new_free_rectangles, hx, hy, hw, hh]
    rw [Bin.split_free, Bin.split_free, ih, hov, hnew]

theorem place_assign_congr (b : Bin) (r r' it : Rect) (bi : Int) (h : r.same_size r') :
    b.place (Bin.assign r it bi) = b.place (Bin.assign r' it bi) := by
  unfold Bin.place
  rw [split_free_congr (Bin.assign r it bi) (Bin.assign r' it bi) rfl rfl h.1 h.2]

/-- The loop reads nothing of an item but its size: on two containers with the same sizes at
every index it leaves the same packer, ends the same way (up to the identifier in the
message), and writes the same position and bin index at every index it writes to. -/
theorem layout_loop_sizes_only (items1 : List Rect) :
    ∀ (items2 : List Rect) (b : Bin) (bi : Int),
      items1.map (fun r => (r.w, r.h)) = items2.map (fun r => (r.w, r.h)) →
      (Bin.layout_loop b bi items1).bin = (Bin.layout_loop b bi items2).bin ∧
      ((Bin.layout_loop b bi items1).thrown = none ↔
        (Bin.layout_loop b bi items2).thrown = none) ∧
      (Bin.placed_loop b bi items1).length = (Bin.placed_loop b bi items2).length ∧
      ∀ (i : Nat) (p q : Rect), (Bin.placed_loop b bi items1)[i]? = some p →
        (Bin.placed_loop b bi items2)[i]? = some q → p.x = q.x ∧ p.y = q.y ∧ p.bin = q.bin := by
  induction items1 with
  | nil =>
    intro items2 b bi h
    cases items2 with
    | nil => simp [Bin.placed_loop]
    | cons r2 rest2 => simp at h
  | cons r1 rest1 ih =>
    intro items2 b bi h
    cases items2 with
    | nil => simp at h
    | cons r2 rest2 =>
      simp only [List.map_cons, List.cons.injEq, Prod.mk.injEq] at h
      obtain ⟨hsz, hrest⟩ := h
      have hc := choose_congr b bi r1 r2 hsz
      cases h1 : b.choose bi r1 with
      | none =>
        rw [h1] at hc
        rw [layout_loop_cons_none _ _ _ _ h1, layout_loop_cons_none _ _ _ _ hc.symm]
        simp only [Bin.placed_loop, h1, ← hc]
        cases b.m_multiple_bins <;> simp
      | some c =>
        obtain ⟨it, b1, bi1⟩ := c
        rw [h1] at hc
        rw [layout_loop_cons_some _ _ _ _ _ _ _ h1, layout_loop_cons_some _ _ _ _ _ _ _ hc.symm]
        simp only [Bin.placed_loop, h1, ← hc]
        rw [place_assign_congr b1 r1 r2 it bi1 hsz]
        obtain ⟨e1, e2, e3, e4⟩ := ih rest2 (b1.place (Bin.assign r2 it bi1)) bi1 hrest
        refine ⟨e1, e2, by simp only [List.length_cons, e3], ?_⟩
        intro i p q hp hq
        cases i with
        | zero =>
          simp only [List.getElem?_cons_zero, Option.some.injEq] at hp hq
          subst hp hq
          exact ⟨rfl, rfl, rfl⟩
        | succ i =>
          simp only [List.getElem?_cons_succ] at hp hq
          exact e4 i p q hp hq

/-- C18 (the placements depend on the sizes only).  For two runs of `layout_bulk` on freshly
constructed bins of the same size and mode whose inputs have the same `(w, h)` at every index,
whatever their `code_point`, `x`, `y` and `bin` are: both runs end with the same packer (the
same processed count, hence the same indices placed, and the same free list) and the same
throw or return outcome, and every placed index gets the same `x`, `y` and bin index. -/
theorem layout_bulk_depends_on_sizes_only (W H : Int) (multiple_bins : Bool)
    (items1 items2 : List Rect)
    (hsizes : items1.map (fun r => (r.w, r.h)) = items2.map (fun r => (r.w, r.h))) :
    ((Bin.new W H multiple_bins).layout_bulk items1).bin =
      ((Bin.new W H multiple_bins).layout_bulk items2).bin ∧
    (((Bin.new W H multiple_bins).layout_bulk items1).thrown = none ↔
      ((Bin.new W H multiple_bins).layout_bulk items2).thrown = none) ∧
    ((Bin.new W H multiple_bins).layout_bulk items1).placed.length =
      ((Bin.new W H multiple_bins).layout_bulk items2).placed.length ∧
    ∀ (i : Nat) (p q : Rect),
      ((Bin.new W H multiple_bins).layout_bulk items1).placed[i]? = some p →
      ((Bin.new W H multiple_bins).layout_bulk items2).placed[i]? = some q →
        p.x = q.x ∧ p.y = q.y ∧ p.bin = q.bin := by
  rw [layout_bulk_placed _ _ rfl, layout_bulk_placed _ _ rfl]
  exact layout_loop_sizes_only items1 items2 (Bin.new W H multiple_bins) 0 hsizes

/-- C18 at the 10 by 10 single bin: the items 6x6, 6x4 with ids 1, 2 and default positions,
and the items 6x6, 6x4 with ids 80, 90 and other supplied positions and bins, get the same
placement at index 1. -/
theorem layout_bulk_depends_on_sizes_only_witness :
    ([{ code_point := 1, w := 6, h := 6 }, { code_point := 2, w := 6, h := 4 }] :
        List Rect).map (fun r => (r.w, r.h)) =
      ([{ code_point := 80, x := 3, y := 9, w := 6, h := 6, bin := 4 },
        { code_point := 90, x := 7, y := 1, w := 6, h := 4, bin := 2 }] :
        List Rect).map (fun r => (r.w, r.h)) ∧
    ((Bin.new 10 10 false).layout_bulk
        [{ code_point := 1, w := 6, h := 6 }, { code_point := 2, w := 6, h := 4 }]).placed[1]? =
      some { code_point := 2, x := 0, y := 6, w := 6, h := 4, bin := 0 } ∧
    ((Bin.new 10 10 false).layout_bulk
        [{ code_point := 80, x := 3, y := 9, w := 6, h := 6, bin := 4 },
          { code_point := 90, x := 7, y := 1, w := 6, h := 4, bin := 2 }]).placed[1]? =
      some { code_point := 90, x := 0, y := 6, w := 6, h := 4, bin := 0 } ∧
    ((0 : Int) = 0 ∧ (6 : Int) = 6 ∧ (0 : Int) = 0) :=
  ⟨by decide, by decide, by decide,
    (layout_bulk_depends_on_sizes_only 10 10 false
      [{ code_point := 1, w := 6, h := 6 }, { code_point := 2, w := 6, h := 4 }]
      [{ code_point := 80, x := 3, y := 9, w := 6, h := 6, bin := 4 },
        { code_point := 90, x := 7, y := 1, w := 6, h := 4, bin := 2 }] (by decide)).2.2.2 1
      { code_point := 2, x := 0, y := 6, w := 6, h := 4, bin := 0 }
      { code_point := 90, x := 0, y := 6, w := 6, h := 4, bin := 0 } (by decide) (by decide)⟩

/-! ## The split of one free rectangle -/

theorem push_non_degenerate_length (n : Rect) : (Bin.push_non_degenerate n).length ≤ 1 := by
  unfold Bin.push_non_degenerate
  split <;> simp

theorem compute_new_length (F R : Rect) : (Bin.compute_new_free_rectangles F R).length ≤ 4 := by
  unfold Bin.compute_new_free_rectangles
  have h1 := push_non_degenerate_length
    { F with y := R.y + R.h, h := F.y + F.h - (R.y + R.h) }
  have h2 := push_non_degenerate_length { F with h := R.y - F.y }
  have h3 := push_non_degenerate_length { F with w := R.x - F.x }
  have h4 := push_non_degenerate_length
    { F with x := R.x + R.w, w := F.x + F.w - (R.x + R.w) }
  simp only [List.length_append]
  split_ifs <;> simp only [List.length_append, List.length_nil] <;> omega

theorem has_cell_of_inside (F f : Rect) (px py : Int) (hin : Bin.inside F f = true)
    (hc : f.has_cell px py) : F.has_cell px py := by
  rw [inside_iff] at hin
  unfold Rect.has_cell at *
  omega

theorem overlaps_of_common_cell (a b : Rect) (px py : Int) (ha : a.has_cell px py)
    (hb : b.has_cell px py) : Bin.overlaps a b = true := by
  rw [overlaps_iff]
  unfold Rect.has_cell at *
  omega

/-- A pixel of a free rectangle that the inserted rectangle overlaps, outside the inserted
rectangle, belongs to one of the pieces the split emits. -/
theorem compute_new_covers_cell (F R : Rect) (px py : Int) (hov : Bin.overlaps F R = true)
    (hF : F.has_cell px py) (hR : ¬ R.has_cell px py) :
    ∃ f ∈ Bin.compute_new_free_rectangles F R, f.has_cell px py := by
  rw [overlaps_iff] at hov
  unfold Rect.has_cell at hF hR
  have gx : R.x < F.x + F.w ∧ R.x + R.w > F.x := ⟨hov.1.1, hov.1.2⟩
  have gy : R.y < F.y + F.h ∧ R.y + R.h > F.y := ⟨hov.2.1, hov.2.2⟩
  unfold Bin.compute_new_free_rectangles
  rw [if_pos gx, if_pos gy]
  by_cases c1 : R.y + R.h ≤ py
  · refine ⟨{ F with y := R.y + R.h, h := F.y + F.h - (R.y + R.h) }, ?_, ?_⟩
    · apply List.mem_append_left
      apply List.mem_append_left
      rw [if_pos (by omega), mem_push_non_degenerate]
      exact ⟨rfl, by simp only; omega, by simp only; omega⟩
    · unfold Rect.has_cell; simp only; omega
  by_cases c2 : py < R.y
  · refine ⟨{ F with h := R.y - F.y }, ?_, ?_⟩
    · apply List.mem_append_left
      apply List.mem_append_right
      rw [if_pos ⟨by omega, by omega⟩, mem_push_non_degenerate]
      exact ⟨rfl, by simp only; omega, by simp only; omega⟩
    · unfold Rect.has_cell; simp only; omega
  by_cases c3 : px < R.x
  · refine ⟨{ F with w := R.x - F.x }, ?_, ?_⟩
    · apply List.mem_append_right
      apply List.mem_append_left
      rw [if_pos ⟨by omega, by omega⟩, mem_push_non_degenerate]
      exact ⟨rfl, by simp only; omega, by simp only; omega⟩
    · unfold Rect.has_cell; simp only; omega
  · refine ⟨{ F with x := R.x + R.w, w := F.x + F.w - (R.x + R.w) }, ?_, ?_⟩
    · apply List.mem_append_right
      apply List.mem_append_right
      rw [if_pos (by omega), mem_push_non_degenerate]
      exact ⟨rfl, by simp only; omega, by simp only; omega⟩
    · unfold Rect.has_cell; simp only; omega

/-- C19 (splitting).  For a free region `F` and a placed item `R` that overlap in the sense of
`Bin::overlaps` (in particular for `F` and `R` of positive size):
`compute_new_free_rectangles(F, R)` emits at most four regions; each has `w > 0` and `h > 0`,
lies inside `F` and does not overlap `R`; and together they cover exactly the remainder, that
is, a pixel `(px, py)` lies in some emitted region if and only if it lies in `F` and not in
`R`. -/
theorem compute_new_free_rectangles_exact (F R : Rect) (hov : Bin.overlaps F R = true) :
    (Bin.compute_new_free_rectangles F R).length ≤ 4 ∧
    (∀ f ∈ Bin.compute_new_free_rectangles F R,
      0 < f.w ∧ 0 < f.h ∧ Bin.inside F f = true ∧ Bin.overlaps f R = false) ∧
    ∀ px py : Int,
      (∃ f ∈ Bin.compute_new_free_rectangles F R, f.has_cell px py) ↔
        (F.has_cell px py ∧ ¬ R.has_cell px py) := by
  refine ⟨compute_new_length F R, ?_, ?_⟩
  · intro f hf
    obtain ⟨h1, h2, h3, h4⟩ := compute_new_mem F R f hov hf
    exact ⟨h3, h4, h1, h2⟩
  · intro px py
    constructor
    · rintro ⟨f, hf, hc⟩
      obtain ⟨h1, h2, _, _⟩ := compute_new_mem F R f hov hf
      refine ⟨has_cell_of_inside F f px py h1 hc, ?_⟩
      intro hRc
      rw [overlaps_of_common_cell f R px py hc hRc] at h2
      exact absurd h2 (by decide)
    · rintro ⟨h1, h2⟩
      exact compute_new_covers_cell F R px py hov h1 h2

/-- C19 at the free region (0,0,10,10) and the item 6x6 at (0,0): two regions are emitted,
(0,6,10,4) and (6,0,4,10), and the pixel (7,7) lies in one of them. -/
theorem compute_new_free_rectangles_exact_witness :
    Bin.overlaps { w := 10, h := 10 } { code_point := 1, w := 6, h := 6, bin := 0 } = true ∧
    Bin.compute_new_free_rectangles { w := 10, h := 10 }
        { code_point := 1, w := 6, h := 6, bin := 0 } =
      [{ x := 0, y := 6, w := 10, h := 4 }, { x := 6, y := 0, w := 4, h := 10 }] ∧
    ((∃ f ∈ Bin.compute_new_free_rectangles { w := 10, h := 10 }
        { code_point := 1, w := 6, h := 6, bin := 0 }, f.has_cell 7 7) ↔
      (Rect.has_cell { w := 10, h := 10 } 7 7 ∧
        ¬ Rect.has_cell { code_point := 1, w := 6, h := 6, bin := 0 } 7 7)) :=
  ⟨by decide, by decide,
    (compute_new_free_rectangles_exact { w := 10, h := 10 }
      { code_point := 1, w := 6, h := 6, bin := 0 } (by decide)).2.2 7 7⟩

/-! ## Properties of the packer a run leaves -/

theorem last_instance_append_singleton (bi : Int) (l : List Rect) (p : Rect) :
    Bin.last_instance bi (l ++ [p]) = p.bin := by
  induction l generalizing bi with
  | nil => rfl
  | cons a rest ih => exact ih a.bin

theorem last_instance_of_getLast? (l : List Rect) :
    ∀ (bi : Int) (last : Rect), l.getLast? = some last → Bin.last_instance bi l = last.bin := by
  induction l with
  | nil => intro bi last h; simp at h
  | cons a rest ih =>
    intro bi last h
    cases rest with
    | nil =>
      simp only [List.getLast?_singleton, Option.some.injEq] at h
      subst h
      rfl
    | cons c rest2 =>
      rw [List.getLast?_cons_cons] at h
      exact ih a.bin last h

/-- A property of the packer, of the current bin instance and of the list of the items
placed so far that every placement of an admissible item preserves, holds of the packer that
a run without throw leaves, together with the bin index of the last item placed. -/
theorem layout_loop_invariant (P : Rect → Prop) (I : Bin → Int → List Rect → Prop)
    (hstep : ∀ (b : Bin) (bi : Int) (done : List Rect) (r it : Rect) (b1 : Bin) (bi1 : Int),
      P r → I b bi done → b.choose bi r = some (it, b1, bi1) →
        I (b1.place (Bin.assign r it bi1)) bi1 (done ++ [Bin.assign r it bi1]))
    (items : List Rect) :
    ∀ (b : Bin) (bi : Int) (done : List Rect), (∀ r ∈ items, P r) → I b bi done →
      (Bin.layout_loop b bi items).thrown = none →
        I (Bin.layout_loop b bi items).bin (Bin.last_instance bi (Bin.placed_loop b bi items))
          (done ++ Bin.placed_loop b bi items) := by
  induction items with
  | nil =>
    intro b bi done _ hI _
    simpa [Bin.layout_loop, Bin.placed_loop, Bin.last_instance] using hI
  | cons r rest ih =>
    intro b bi done hP hI hthrown
    cases h : b.choose bi r with
    | none =>
      rw [layout_loop_cons_none _ _ _ _ h] at hthrown ⊢
      cases hm : b.m_multiple_bins with
      | true => simp [hm] at hthrown
      | false => simpa [Bin.placed_loop, h, Bin.last_instance] using hI
    | some c =>
      obtain ⟨it, b1, bi1⟩ := c
      rw [layout_loop_cons_some _ _ _ _ _ _ _ h] at hthrown ⊢
      simp only [Bin.placed_loop, h, Bin.last_instance]
      rw [List.append_cons]
      exact ih _ _ _ (fun x hx => hP x (List.mem_cons_of_mem _ hx))
        (hstep b bi done r it b1 bi1 (hP r (List.mem_cons_self _ _)) hI h) hthrown

/-- The run of the loop on the first `i` elements, for `i` up to the number of elements the
whole run places, does not throw and places exactly those `i` elements, as the whole run
does: the packer it leaves is the one the whole run has after its `i`-th placement. -/
theorem layout_loop_prefix (items : List Rect) :
    ∀ (b : Bin) (bi : Int) (i : Nat), i ≤ (Bin.placed_loop b bi items).length →
      (Bin.layout_loop b bi (items.take i)).thrown = none ∧
        Bin.placed_loop b bi (items.take i) = (Bin.placed_loop b bi items).take i := by
  induction items with
  | nil => intro b bi i _; simp [Bin.layout_loop, Bin.placed_loop]
  | cons r rest ih =>
    intro b bi i hi
    cases i with
    | zero => simp [Bin.layout_loop, Bin.placed_loop]
    | succ i =>
      cases h : b.choose bi r with
      | none => simp [Bin.placed_loop, h] at hi
      | some c =>
        obtain ⟨it, b1, bi1⟩ := c
        simp only [Bin.placed_loop, h, List.length_cons] at hi
        obtain ⟨h1, h2⟩ := ih (b1.place (Bin.assign r it bi1)) bi1 i (by omega)
        rw [List.take_succ_cons, layout_loop_cons_some _ _ _ _ _ _ _ h]
        simp only [Bin.placed_loop, h, List.take_succ_cons]
        exact ⟨h1, by rw [h2]⟩

/-- One placement keeps the free rectangles clear of the items placed in the current bin. -/
theorem clear_step (b : Bin) (bi : Int) (done : List Rect) (r it : Rect) (b1 : Bin)
    (bi1 : Int)
    (hI : (∀ p ∈ done, p.bin ≤ bi) ∧
      ∀ p ∈ done, p.bin = bi → ∀ f ∈ b.m_free_rectangles, Bin.overlaps f p = false)
    (h : b.choose bi r = some (it, b1, bi1)) :
    (∀ p ∈ done ++ [Bin.assign r it bi1], p.bin ≤ bi1) ∧
      ∀ p ∈ done ++ [Bin.assign r it bi1], p.bin = bi1 →
        ∀ f ∈ (b1.place (Bin.assign r it bi1)).m_free_rectangles, Bin.overlaps f p = false := by
  obtain ⟨h2, h3⟩ := hI
  obtain ⟨_, _, hcase⟩ := choose_some _ _ _ _ _ _ h
  have hbin : (Bin.assign r it bi1).bin = bi1 := rfl
  constructor
  · intro p hp
    rcases List.mem_append.1 hp with hd | hs
    · have := h2 p hd
      rcases hcase with ⟨_, rfl⟩ | ⟨_, rfl, _⟩ <;> omega
    · rw [List.mem_singleton] at hs
      subst hs
      exact le_of_eq hbin
  · intro p hp hpb f hf
    rcases List.mem_append.1 hp with hd | hs
    · have hle := h2 p hd
      rcases hcase with ⟨rfl, rfl⟩ | ⟨_, rfl, _⟩
      · exact place_free_keeps_clear _ _ _ _ (h3 p hd hpb) hf
      · omega
    · rw [List.mem_singleton] at hs
      subst hs
      exact place_free_not_overlaps _ _ _ hf

/-- C13 (free regions stay clear of the placements).  After a call of `layout_bulk` on a
freshly constructed bin that did not throw, so that the packer is as the cleanup of the last
placement left it, no free region overlaps (`Bin::overlaps`) an item placed in the current
bin, that is, a placed item with the bin index of the last placed item.  Every state reached
by placing items is the state such a call leaves; the sizes need not be positive. -/
theorem free_regions_clear_of_placed (W H : Int) (multiple_bins : Bool) (items : List Rect)
    (hthrown : ((Bin.new W H multiple_bins).layout_bulk items).thrown = none)
    (last : Rect)
    (hlast : ((Bin.new W H multiple_bins).layout_bulk items).placed.getLast? = some last)
    (p : Rect) (hp : p ∈ ((Bin.new W H multiple_bins).layout_bulk items).placed)
    (hbin : p.bin = last.bin) (f : Rect)
    (hf : f ∈ ((Bin.new W H multiple_bins).layout_bulk items).bin.m_free_rectangles) :
    Bin.overlaps f p = false := by
  rw [layout_bulk_placed _ _ rfl] at hlast hp
  have h := layout_loop_invariant (fun _ => True)
    (fun b bi done => (∀ p ∈ done, p.bin ≤ bi) ∧
      ∀ p ∈ done, p.bin = bi → ∀ f ∈ b.m_free_rectangles, Bin.overlaps f p = false)
    (fun b bi done r it b1 bi1 _ hI hc => clear_step b bi done r it b1 bi1 hI hc)
    items (Bin.new W H multiple_bins) 0 [] (fun _ _ => trivial) (by simp) hthrown
  rw [List.nil_append, last_instance_of_getLast? _ 0 last hlast] at h
  exact h.2 p hp hbin f hf

/-- C13 at the 10 by 10 single bin after the items 6x6 and 6x4: the free region (6,0,4,10)
does not overlap the first placed item. -/
theorem free_regions_clear_of_placed_witness :
    ((Bin.new 10 10 false).layout_bulk
        [{ code_point := 1, w := 6, h := 6 }, { code_point := 2, w := 6, h := 4 }]).thrown =
      none ∧
    ((Bin.new 10 10 false).layout_bulk
        [{ code_point := 1, w := 6, h := 6 },
          { code_point := 2, w := 6, h := 4 }]).placed.getLast? =
      some { code_point := 2, x := 0, y := 6, w := 6, h := 4, bin := 0 } ∧
    ({ code_point := 1, x := 0, y := 0, w := 6, h := 6, bin := 0 } : Rect) ∈
      ((Bin.new 10 10 false).layout_bulk
        [{ code_point := 1, w := 6, h := 6 }, { code_point := 2, w := 6, h := 4 }]).placed ∧
    ({ x := 6, y := 0, w := 4, h := 10 } : Rect) ∈
      ((Bin.new 10 10 false).layout_bulk
        [{ code_point := 1, w := 6, h := 6 },
          { code_point := 2, w := 6, h := 4 }]).bin.m_free_rectangles ∧
    Bin.overlaps { x := 6, y := 0, w := 4, h := 10 }
      { code_point := 1, x := 0, y := 0, w := 6, h := 6, bin := 0 } = false :=
  ⟨by decide, by decide, by decide, by decide,
    free_regions_clear_of_placed 10 10 false
      [{ code_point := 1, w := 6, h := 6 }, { code_point := 2, w := 6, h := 4 }] (by decide)
      { code_point := 2, x := 0, y := 6, w := 6, h := 4, bin := 0 } (by decide)
      { code_point := 1, x := 0, y := 0, w := 6, h := 6, bin := 0 } (by decide) (by decide)
      { x := 6, y := 0, w := 4, h := 10 } (by decide)⟩

/-! ## Every empty rectangle of the current bin lies inside a free rectangle -/

theorem inside_refl (a : Rect) : Bin.inside a a = true := by
  rw [inside_iff]; omega

theorem inside_trans (a b c : Rect) (h1 : Bin.inside a b = true) (h2 : Bin.inside b c = true) :
    Bin.inside a c = true := by
  rw [inside_iff] at *; omega

/-- A rectangle of positive size inside a free rectangle that the inserted rectangle
overlaps, itself clear of the inserted rectangle, lies inside one of the pieces the split
emits. -/
theorem compute_new_covers_rect (F R E : Rect) (hov : Bin.overlaps F R = true)
    (hin : Bin.inside F E = true) (hclear : Bin.overlaps E R = false)
    (hw : 0 < E.w) (hh : 0 < E.h) :
    ∃ N ∈ Bin.compute_new_free_rectangles F R, Bin.inside N E = true := by
  rw [overlaps_iff] at hov
  rw [inside_iff] at hin
  rw [overlaps_false_iff] at hclear
  have gx : R.x < F.x + F.w ∧ R.x + R.w > F.x := ⟨hov.1.1, hov.1.2⟩
  have gy : R.y < F.y + F.h ∧ R.y + R.h > F.y := ⟨hov.2.1, hov.2.2⟩
  unfold Bin.compute_new_free_rectangles
  rw [if_pos gx, if_pos gy]
  by_cases c1 : R.y + R.h ≤ E.y
  · refine ⟨{ F with y := R.y + R.h, h := F.y + F.h - (R.y + R.h) }, ?_, ?_⟩
    · apply List.mem_append_left
      apply List.mem_append_left
      rw [if_pos (by omega), mem_push_non_degenerate]
      exact ⟨rfl, by simp only; omega, by simp only; omega⟩
    · rw [inside_iff]; simp only; omega
  by_cases c2 : E.y + E.h ≤ R.y
  · refine ⟨{ F with h := R.y - F.y }, ?_, ?_⟩
    · apply List.mem_append_left
      apply List.mem_append_right
      rw [if_pos ⟨by omega, by omega⟩, mem_push_non_degenerate]
      exact ⟨rfl, by simp only; omega, by simp only; omega⟩
    · rw [inside_iff]; simp only; omega
  by_cases c3 : E.x + E.w ≤ R.x
  · refine ⟨{ F with w := R.x - F.x }, ?_, ?_⟩
    · apply List.mem_append_right
      apply List.mem_append_left
      rw [if_pos ⟨by omega, by omega⟩, mem_push_non_degenerate]
      exact ⟨rfl, by simp only; omega, by simp only; omega⟩
    · rw [inside_iff]; simp only; omega
  · refine ⟨{ F with x := R.x + R.w, w := F.x + F.w - (R.x + R.w) }, ?_, ?_⟩
    · apply List.mem_append_right
      apply List.mem_append_right
      rw [if_pos (by omega), mem_push_non_degenerate]
      exact ⟨rfl, by simp only; omega, by simp only; omega⟩
    · rw [inside_iff]; simp only; omega

theorem split_free_snd_of_mem (r : Rect) (l : List Rect) (F N : Rect) (hF : F ∈ l)
    (hov : Bin.overlaps F r = true) (hN : N ∈ Bin.compute_new_free_rectangles F r) :
    N ∈ (Bin.split_free r l).2 := by
  induction l with
  | nil => cases hF
  | cons g rest ih =>
    unfold Bin.split_free
    simp only
    rcases List.mem_cons.1 hF with rfl | hF
    · rw [if_pos hov]
      exact List.mem_append_left _ hN
    · split
      · exact List.mem_append_right _ (ih hF)
      · exact ih hF

/-- The new-vs-new loop only erases rectangles that lie inside a rectangle it keeps. -/
theorem prune_new_loop_covers (fuel : Nat) :
    ∀ (before todo : List Rect), todo.length ≤ fuel → ∀ n, n ∈ before ∨ n ∈ todo →
      ∃ s ∈ Bin.prune_new_loop fuel before todo, Bin.inside s n = true := by
  induction fuel with
  | zero =>
    intro before todo h n hn
    have hnil : todo = [] := List.length_eq_zero.1 (by omega)
    subst hnil
    rcases hn with hn | hn
    · exact ⟨n, by simpa [Bin.prune_new_loop] using hn, inside_refl n⟩
    · cases hn
  | succ k ih =>
    intro before todo h n hn
    cases todo with
    | nil =>
      rcases hn with hn | hn
      · exact ⟨n, by simpa [Bin.prune_new_loop] using hn, inside_refl n⟩
      · cases hn
    | cons cur rest =>
      simp only [Bin.prune_new_loop]
      simp only [List.length_cons] at h
      have hlen : (rest.filter (fun b => !Bin.inside cur b)).length ≤ k :=
        le_trans (List.length_filter_le _ _) (by omega)
      by_cases hc : Bin.inside cur n = true
      · obtain ⟨s, hs, hsn⟩ := ih (before.filter (fun b => !Bin.inside cur b) ++ [cur])
          (rest.filter (fun b => !Bin.inside cur b)) hlen cur
          (Or.inl (List.mem_append_right _ (List.mem_singleton_self cur)))
        exact ⟨s, hs, inside_trans s cur n hsn hc⟩
      · apply ih _ _ hlen n
        rcases hn with hn | hn
        · left
          exact List.mem_append_left _ (List.mem_filter.2 ⟨hn, by simpa using hc⟩)
        · rcases List.mem_cons.1 hn with rfl | hn
          · left
            exact List.mem_append_right _ (List.mem_singleton_self _)
          · right
            exact List.mem_filter.2 ⟨hn, by simpa using hc⟩

theorem prune_new_covers (l : List Rect) (n : Rect) (hn : n ∈ l) :
    ∃ s ∈ Bin.prune_new l, Bin.inside s n = true :=
  prune_new_loop_covers l.length [] l (le_refl _) n (Or.inr hn)

/-- The new-vs-old loop only erases rectangles that lie inside an old free rectangle. -/
theorem prune_against_old_covers (old : List Rect) :
    ∀ (l : List Rect) (n : Rect), n ∈ l →
      n ∈ Bin.prune_against_old old l ∨ ∃ o ∈ old, Bin.inside o n = true := by
  induction old with
  | nil => intro l n hn; left; simpa [Bin.prune_against_old] using hn
  | cons o rest ih =>
    intro l n hn
    simp only [Bin.prune_against_old]
    by_cases hc : Bin.inside o n = true
    · right; exact ⟨o, List.mem_cons_self _ _, hc⟩
    · rcases ih (l.filter (fun b => !Bin.inside o b)) n
        (List.mem_filter.2 ⟨hn, by simpa using hc⟩) with h | ⟨o2, ho2, h⟩
      · left; exact h
      · right; exact ⟨o2, List.mem_cons_of_mem _ ho2, h⟩

/-- A rectangle of positive size that lay inside a free rectangle before a placement and is
clear of the rectangle placed lies inside a free rectangle after the placement. -/
theorem place_covers (b : Bin) (r E : Rect) (hE : ∃ F ∈ b.m_free_rectangles, Bin.inside F E = true)
    (hclear : Bin.overlaps E r = false) (hw : 0 < E.w) (hh : 0 < E.h) :
    ∃ f ∈ (b.place r).m_free_rectangles, Bin.inside f E = true := by
  obtain ⟨F, hF, hin⟩ := hE
  unfold Bin.place
  simp only
  cases hov : Bin.overlaps F r with
  | false =>
    refine ⟨F, List.mem_append_left _ ?_, hin⟩
    rw [split_free_fst, List.mem_filter]
    exact ⟨hF, by simp [hov]⟩
  | true =>
    obtain ⟨N, hN, hNE⟩ := compute_new_covers_rect F r E hov hin hclear hw hh
    obtain ⟨s, hs, hsN⟩ := prune_new_covers _ N (split_free_snd_of_mem r _ F N hF hov hN)
    rcases prune_against_old_covers (Bin.split_free r b.m_free_rectangles).1 _ s hs with
      h | ⟨o, ho, h⟩
    · exact ⟨s, List.mem_append_right _ h, inside_trans s N E hsN hNE⟩
    · exact ⟨o, List.mem_append_left _ ho, inside_trans o s E h (inside_trans s N E hsN hNE)⟩

/-- One placement keeps the covering property: every rectangle of positive size within the
bin that is clear of the items of the current bin lies inside a free rectangle. -/
theorem cover_step (W H : Int) (b : Bin) (bi : Int) (done : List Rect) (r it : Rect)
    (b1 : Bin) (bi1 : Int)
    (hI : b.m_width = W ∧ b.m_height = H ∧ (∀ p ∈ done, p.bin ≤ bi) ∧
      ∀ E : Rect, 0 < E.w → 0 < E.h → E.within W H →
        (∀ p ∈ done, p.bin = bi → Bin.overlaps E p = false) →
        ∃ f ∈ b.m_free_rectangles, Bin.inside f E = true)
    (h : b.choose bi r = some (it, b1, bi1)) :
    (b1.place (Bin.assign r it bi1)).m_width = W ∧
      (b1.place (Bin.assign r it bi1)).m_height = H ∧
      (∀ p ∈ done ++ [Bin.assign r it bi1], p.bin ≤ bi1) ∧
      ∀ E : Rect, 0 < E.w → 0 < E.h → E.within W H →
        (∀ p ∈ done ++ [Bin.assign r it bi1], p.bin = bi1 → Bin.overlaps E p = false) →
        ∃ f ∈ (b1.place (Bin.assign r it bi1)).m_free_rectangles, Bin.inside f E = true := by
  obtain ⟨hW, hH, h2, hcov⟩ := hI
  obtain ⟨_, _, hcase⟩ := choose_some _ _ _ _ _ _ h
  have hbin : (Bin.assign r it bi1).bin = bi1 := rfl
  have hle : ∀ p ∈ done ++ [Bin.assign r it bi1], p.bin ≤ bi1 := by
    intro p hp
    rcases List.mem_append.1 hp with hd | hs
    · have := h2 p hd
      rcases hcase with ⟨_, rfl⟩ | ⟨_, rfl, _⟩ <;> omega
    · rw [List.mem_singleton] at hs
      subst hs
      exact le_of_eq hbin
  rcases hcase with ⟨rfl, rfl⟩ | ⟨rfl, rfl, _⟩
  · refine ⟨hW, hH, hle, ?_⟩
    intro E hw hh hwithin hclear
    apply place_covers _ _ _ _ (hclear _ (List.mem_append_right _ (List.mem_singleton_self _)) rfl)
      hw hh
    exact hcov E hw hh hwithin
      (fun p hp hpb => hclear p (List.mem_append_left _ hp) hpb)
  · refine ⟨hW, hH, hle, ?_⟩
    intro E hw hh hwithin hclear
    apply place_covers _ _ _ _ (hclear _ (List.mem_append_right _ (List.mem_singleton_self _)) rfl)
      hw hh
    refine ⟨{ w := b.m_width, h := b.m_height }, by simp [Bin.reset], ?_⟩
    rw [inside_iff]
    unfold Rect.within at hwithin
    simp only [hW, hH]
    omega

/-- C20 (the packer gives up only when there is no legal position).  After a call of
`layout_bulk` on a freshly constructed `W` by `H` bin (the width an `int`) that did not throw,
so that the packer is as the cleanup of the last placement left it: for every item of
positive `w` and `h`, if there are `x, y >= 0` with `x + w <= W` and `y + h <= H` such that
the rectangle `(x, y, w, h)` overlaps no item placed in the current bin (the bin of the last
placed item), then that rectangle lies inside some free region, and
`find_best_free_rectangle` returns a region for the item.  Hence single-bin mode stops, and
multi-bin mode opens a new bin, only when no such position exists. -/
theorem gives_up_only_without_position (W H : Int) (multiple_bins : Bool)
    (items : List Rect) (hW : W ≤ INT_MAX)
    (hthrown : ((Bin.new W H multiple_bins).layout_bulk items).thrown = none)
    (item : Rect) (x y : Int) (hpos : 0 < item.w ∧ 0 < item.h)
    (hin : 0 ≤ x ∧ 0 ≤ y ∧ x + item.w ≤ W ∧ y + item.h ≤ H)
    (hclear : ∀ p ∈ ((Bin.new W H multiple_bins).layout_bulk items).placed,
      p.bin = ((Bin.new W H multiple_bins).layout_bulk items).current_bin →
        Bin.overlaps { x := x, y := y, w := item.w, h := item.h } p = false) :
    (∃ f ∈ ((Bin.new W H multiple_bins).layout_bulk items).bin.m_free_rectangles,
      Bin.inside f { x := x, y := y, w := item.w, h := item.h } = true) ∧
    ∃ g, Bin.find_best_free_rectangle
      ((Bin.new W H multiple_bins).layout_bulk items).bin.m_free_rectangles item = some g := by
  unfold Layout.current_bin at hclear
  rw [layout_bulk_placed _ _ rfl] at hclear
  have h := layout_loop_invariant (fun _ => True)
    (fun b bi done => b.m_width = W ∧ b.m_height = H ∧ (∀ p ∈ done, p.bin ≤ bi) ∧
      ∀ E : Rect, 0 < E.w → 0 < E.h → E.within W H →
        (∀ p ∈ done, p.bin = bi → Bin.overlaps E p = false) →
        ∃ f ∈ b.m_free_rectangles, Bin.inside f E = true)
    (fun b bi done r it b1 bi1 _ hI hc => cover_step W H b bi done r it b1 bi1 hI hc)
    items (Bin.new W H multiple_bins) 0 [] (fun _ _ => trivial)
    (by
      refine ⟨rfl, rfl, by simp, ?_⟩
      intro E _ _ hwithin _
      refine ⟨{ w := W, h := H }, by simp [Bin.new], ?_⟩
      rw [inside_iff]
      unfold Rect.within at hwithin
      simp only
      omega)
    hthrown
  rw [List.nil_append] at h
  obtain ⟨f, hf, hfE⟩ := h.2.2.2 { x := x, y := y, w := item.w, h := item.h } hpos.1 hpos.2
    (by unfold Rect.within; simp only; omega) hclear
  refine ⟨⟨f, hf, hfE⟩, ?_⟩
  cases hfb : Bin.find_best_free_rectangle
      ((Bin.new W H multiple_bins).layout_bulk items).bin.m_free_rectangles item with
  | some g => exact ⟨g, rfl⟩
  | none =>
    exfalso
    obtain ⟨hw1, hw2, _⟩ := layout_loop_free_within items (Bin.new W H multiple_bins) 0
      (new_free_within W H multiple_bins)
    have hall := (find_best_none_iff _ item _ _ hw1 (by rw [hw2]; exact hW) hpos.1).1 hfb
    have hnofit := hall f hf
    rw [inside_iff] at hfE
    simp only at hfE
    rw [← Bool.not_eq_true, fits_iff] at hnofit
    omega

/-- C20 at the 10 by 10 single bin after the items 6x6 and 6x4: the position (6, 0) is free
for a 4x6 item, and the search finds a region for it. -/
theorem gives_up_only_without_position_witness :
    (10 : Int) ≤ INT_MAX ∧
    ((Bin.new 10 10 false).layout_bulk
        [{ code_point := 1, w := 6, h := 6 }, { code_point := 2, w := 6, h := 4 }]).thrown =
      none ∧
    (∀ p ∈ ((Bin.new 10 10 false).layout_bulk
        [{ code_point := 1, w := 6, h := 6 }, { code_point := 2, w := 6, h := 4 }]).placed,
      p.bin = ((Bin.new 10 10 false).layout_bulk
        [{ code_point := 1, w := 6, h := 6 },
          { code_point := 2, w := 6, h := 4 }]).current_bin →
        Bin.overlaps { x := 6, y := 0, w := 4, h := 6 } p = false) ∧
    ∃ g, Bin.find_best_free_rectangle
      ((Bin.new 10 10 false).layout_bulk
        [{ code_point := 1, w := 6, h := 6 },
          { code_point := 2, w := 6, h := 4 }]).bin.m_free_rectangles
      { code_point := 3, w := 4, h := 6 } = some g :=
  ⟨by decide, by decide, by decide,
    (gives_up_only_without_position 10 10 false
      [{ code_point := 1, w := 6, h := 6 }, { code_point := 2, w := 6, h := 4 }] (by decide)
      (by decide) { code_point := 3, w := 4, h := 6 } 6 0 (by decide) (by decide)
      (by decide)).2⟩

/-! ## Two successive calls -/

theorem layout_bulk_placed_after (b : Bin) (items : List Rect) :
    (b.layout_bulk items).placed_after b = Bin.placed_loop b 0 items := by
  unfold Layout.placed_after
  rw [layout_bulk_processed_add, layout_bulk_container]
  simp

theorem last_instance_of_all (l : List Rect) :
    ∀ bi : Int, (∀ p ∈ l, p.bin = bi) → Bin.last_instance bi l = bi := by
  induction l with
  | nil => intro bi _; rfl
  | cons a rest ih =>
    intro bi h
    have ha : a.bin = bi := h a (List.mem_cons_self _ _)
    simp only [Bin.last_instance]
    rw [ha]
    exact ih bi (fun p hp => h p (List.mem_cons_of_mem _ hp))

/-- C16, as stated, fails: the bin index is the local `bin_instance` of `layout_bulk`, which
starts at 0 in every call, while the free list carries over.  On the 8 by 8 bin in multi-bin
mode a first call with two 5x5 items puts item 2 at (0,0) in bin 1; a second call with one
5x5 item finds no room, resets, counts from 0 to 1 and puts item 3 at (0,0) with bin index 1
as well: the two overlap and carry the same bin index. -/
theorem second_call_overlaps_first :
    ((Bin.new 8 8 true).layout_bulk
        [{ code_point := 1, w := 5, h := 5 }, { code_point := 2, w := 5, h := 5 }]).container =
      [{ code_point := 1, x := 0, y := 0, w := 5, h := 5, bin := 0 },
        { code_point := 2, x := 0, y := 0, w := 5, h := 5, bin := 1 }] ∧
    (((Bin.new 8 8 true).layout_bulk
        [{ code_point := 1, w := 5, h := 5 }, { code_point := 2, w := 5, h := 5 }]).bin.layout_bulk
        [{ code_point := 3, w := 5, h := 5 }]).container =
      [{ code_point := 3, x := 0, y := 0, w := 5, h := 5, bin := 1 }] ∧
    (((Bin.new 8 8 true).layout_bulk
        [{ code_point := 1, w := 5, h := 5 }, { code_point := 2, w := 5, h := 5 }]).bin.layout_bulk
        [{ code_point := 3, w := 5, h := 5 }]).thrown = none ∧
    Bin.overlaps { code_point := 3, x := 0, y := 0, w := 5, h := 5, bin := 1 }
      { code_point := 2, x := 0, y := 0, w := 5, h := 5, bin := 1 } = true := by
  decide

/-- C16, amended.  The bin index is not packer state: every call of `layout_bulk` counts bins
from 0 again, so the first item a later call places carries bin index 0, or 1 with position
(0,0) when that call had to reset first.  For two successive calls on the same bin (either
mode, no `reset` in between) of which the first returned normally and placed all its items
in bin 0, no item placed by the second call overlaps an item placed by the first call that
carries the same bin index. -/
theorem second_call_bin_index (W H : Int) (multiple_bins : Bool) (items1 items2 : List Rect) :
    (∀ q, ((((Bin.new W H multiple_bins).layout_bulk items1).bin.layout_bulk items2).placed_after
        ((Bin.new W H multiple_bins).layout_bulk items1).bin)[0]? = some q →
      q.bin = 0 ∨ (q.bin = 1 ∧ q.x = 0 ∧ q.y = 0)) ∧
    (((Bin.new W H multiple_bins).layout_bulk items1).thrown = none →
      (∀ p ∈ ((Bin.new W H multiple_bins).layout_bulk items1).placed, p.bin = 0) →
      ∀ p ∈ ((Bin.new W H multiple_bins).layout_bulk items1).placed,
        ∀ q ∈ (((Bin.new W H multiple_bins).layout_bulk items1).bin.layout_bulk
            items2).placed_after ((Bin.new W H multiple_bins).layout_bulk items1).bin,
          p.bin = q.bin → Bin.overlaps p q = false) := by
  rw [layout_bulk_placed_after, layout_bulk_placed _ _ rfl]
  refine ⟨fun q hq => by simpa using placed_loop_head items2 _ 0 q hq, ?_⟩
  intro hthrown hzero p hp q hq hpq
  have hpair := placed_loop_no_overlap items1 (Bin.new W H multiple_bins) 0 []
    List.Pairwise.nil (by simp) (by simp)
  have hinv := layout_loop_invariant (fun _ => True)
    (fun b bi done => (∀ p ∈ done, p.bin ≤ bi) ∧
      ∀ p ∈ done, p.bin = bi → ∀ f ∈ b.m_free_rectangles, Bin.overlaps f p = false)
    (fun b bi done r it b1 bi1 _ hI hc => clear_step b bi done r it b1 bi1 hI hc)
    items1 (Bin.new W H multiple_bins) 0 [] (fun _ _ => trivial) (by simp) hthrown
  rw [List.nil_append] at hpair hinv
  rw [last_instance_of_all _ 0 hzero] at hinv
  have hall := placed_loop_no_overlap items2
    ((Bin.new W H multiple_bins).layout_bulk items1).bin 0
    (Bin.placed_loop (Bin.new W H multiple_bins) 0 items1) hpair hinv.1 hinv.2
  exact (List.pairwise_append.1 hall).2.2 p hp q hq hpq

/-- C16 (amended) at the 10 by 10 bin in multi-bin mode: a first call places a 6x6 item in
bin 0, a second call places a 6x4 item, also with bin index 0, at (0,6); they do not
overlap. -/
theorem second_call_bin_index_witness :
    ((Bin.new 10 10 true).layout_bulk [{ code_point := 1, w := 6, h := 6 }]).thrown = none ∧
    (∀ p ∈ ((Bin.new 10 10 true).layout_bulk [{ code_point := 1, w := 6, h := 6 }]).placed,
      p.bin = 0) ∧
    ({ code_point := 1, x := 0, y := 0, w := 6, h := 6, bin := 0 } : Rect) ∈
      ((Bin.new 10 10 true).layout_bulk [{ code_point := 1, w := 6, h := 6 }]).placed ∧
    ({ code_point := 2, x := 0, y := 6, w := 6, h := 4, bin := 0 } : Rect) ∈
      (((Bin.new 10 10 true).layout_bulk [{ code_point := 1, w := 6, h := 6 }]).bin.layout_bulk
        [{ code_point := 2, w := 6, h := 4 }]).placed_after
        ((Bin.new 10 10 true).layout_bulk [{ code_point := 1, w := 6, h := 6 }]).bin ∧
    Bin.overlaps { code_point := 1, x := 0, y := 0, w := 6, h := 6, bin := 0 }
      { code_point := 2, x := 0, y := 6, w := 6, h := 4, bin := 0 } = false :=
  ⟨by decide, by decide, by decide, by decide,
    (second_call_bin_index 10 10 true [{ code_point := 1, w := 6, h := 6 }]
      [{ code_point := 2, w := 6, h := 4 }]).2 (by decide) (by decide)
      { code_point := 1, x := 0, y := 0, w := 6, h := 6, bin := 0 } (by decide)
      { code_point := 2, x := 0, y := 6, w := 6, h := 4, bin := 0 } (by decide) (by decide)⟩

/-! ## Areas: counting pixels -/

theorem mem_cells (r : Rect) (c : Int × Int) : c ∈ r.cells ↔ r.has_cell c.1 c.2 := by
  unfold Rect.cells Rect.has_cell
  rw [Finset.mem_product, Finset.mem_Ico, Finset.mem_Ico]
  constructor <;> intro h <;> omega

theorem cells_card (r : Rect) (hw : 0 ≤ r.w) (hh : 0 ≤ r.h) :
    (r.cells.card : Int) = r.w * r.h := by
  unfold Rect.cells
  rw [Finset.card_product, Int.card_Ico, Int.card_Ico]
  push_cast
  rw [Int.toNat_of_nonneg (by omega), Int.toNat_of_nonneg (by omega)]
  ring

theorem cells_disjoint (p q : Rect) (h : Bin.overlaps p q = false) :
    Disjoint p.cells q.cells := by
  rw [Finset.disjoint_left]
  intro c hp hq
  rw [mem_cells] at hp hq
  rw [overlaps_of_common_cell p q c.1 c.2 hp hq] at h
  exact absurd h (by decide)

theorem mem_all_cells (l : List Rect) (c : Int × Int) :
    c ∈ all_cells l ↔ ∃ r ∈ l, c ∈ r.cells := by
  induction l with
  | nil => simp [all_cells]
  | cons a rest ih => simp [all_cells, ih]

/-- The rectangles of a list that do not overlap one another and have no negative side cover
as many pixels as the sum of their areas. -/
theorem all_cells_card (l : List Rect)
    (hpair : l.Pairwise (fun p q => Bin.overlaps p q = false))
    (hpos : ∀ r ∈ l, 0 ≤ r.w ∧ 0 ≤ r.h) : ((all_cells l).card : Int) = total_area l := by
  induction l with
  | nil => rfl
  | cons a rest ih =>
    rw [List.pairwise_cons] at hpair
    have hdisj : Disjoint a.cells (all_cells rest) := by
      rw [Finset.disjoint_left]
      intro c ha hrest
      obtain ⟨q, hq, hcq⟩ := (mem_all_cells rest c).1 hrest
      exact Finset.disjoint_left.1 (cells_disjoint a q (hpair.1 q hq)) ha hcq
    simp only [all_cells, total_area]
    rw [Finset.card_union_of_disjoint hdisj]
    push_cast
    rw [ih hpair.2 (fun r hr => hpos r (List.mem_cons_of_mem _ hr)),
      cells_card a (hpos a (List.mem_cons_self _ _)).1 (hpos a (List.mem_cons_self _ _)).2]

theorem all_cells_subset_box (l : List Rect) (W H : Int) (hin : ∀ r ∈ l, r.within W H) :
    all_cells l ⊆ Finset.Ico 0 W ×ˢ Finset.Ico 0 H := by
  intro c hc
  obtain ⟨r, hr, hcr⟩ := (mem_all_cells l c).1 hc
  rw [mem_cells] at hcr
  have := hin r hr
  unfold Rect.within at this
  unfold Rect.has_cell at hcr
  rw [Finset.mem_product, Finset.mem_Ico, Finset.mem_Ico]
  omega

/-- Rectangles within a `W` by `H` bin that do not overlap one another have a total area of
at most `W * H`. -/
theorem total_area_le (l : List Rect) (W H : Int) (hW : 0 ≤ W) (hH : 0 ≤ H)
    (hpair : l.Pairwise (fun p q => Bin.overlaps p q = false))
    (hpos : ∀ r ∈ l, 0 ≤ r.w ∧ 0 ≤ r.h) (hin : ∀ r ∈ l, r.within W H) :
    total_area l ≤ W * H := by
  rw [← all_cells_card l hpair hpos]
  have h := Finset.card_le_card (all_cells_subset_box l W H hin)
  rw [Finset.card_product, Int.card_Ico, Int.card_Ico] at h
  have h2 : ((all_cells l).card : Int) ≤ (((W - 0).toNat * (H - 0).toNat : Nat) : Int) := by
    exact_mod_cast h
  push_cast at h2
  rw [Int.toNat_of_nonneg (by omega), Int.toNat_of_nonneg (by omega)] at h2
  simpa using h2

theorem placed_loop_sizes (items : List Rect) :
    ∀ (b : Bin) (bi : Int), ∀ p ∈ Bin.placed_loop b bi items,
      ∃ r ∈ items, p.w = r.w ∧ p.h = r.h := by
  induction items with
  | nil => intro b bi p hp; simp [Bin.placed_loop] at hp
  | cons r rest ih =>
    intro b bi p hp
    cases h : b.choose bi r with
    | none => simp [Bin.placed_loop, h] at hp
    | some c =>
      obtain ⟨it, b1, bi1⟩ := c
      simp only [Bin.placed_loop, h, List.mem_cons] at hp
      rcases hp with rfl | hp
      · exact ⟨r, List.mem_cons_self _ _, rfl, rfl⟩
      · obtain ⟨r0, hr0, e⟩ := ih _ _ p hp
        exact ⟨r0, List.mem_cons_of_mem _ hr0, e⟩

theorem placed_loop_total_area (items : List Rect) :
    ∀ (b : Bin) (bi : Int),
      total_area (Bin.placed_loop b bi items) =
        total_area (items.take (Bin.placed_loop b bi items).length) := by
  induction items with
  | nil => intro b bi; simp [Bin.placed_loop]
  | cons r rest ih =>
    intro b bi
    cases h : b.choose bi r with
    | none => simp [Bin.placed_loop, h]
    | some c =>
      obtain ⟨it, b1, bi1⟩ := c
      simp only [Bin.placed_loop, h, List.length_cons, List.take_succ_cons, total_area]
      rw [ih]
      rfl

theorem single_placed_loop_bin (items : List Rect) :
    ∀ (b : Bin) (bi : Int), b.m_multiple_bins = false →
      ∀ p ∈ Bin.placed_loop b bi items, p.bin = bi := by
  induction items with
  | nil => intro b bi _ p hp; simp [Bin.placed_loop] at hp
  | cons r rest ih =>
    intro b bi hm p hp
    cases h : b.choose bi r with
    | none => simp [Bin.placed_loop, h] at hp
    | some c =>
      obtain ⟨it, b1, bi1⟩ := c
      simp only [Bin.placed_loop, h, List.mem_cons] at hp
      rcases (choose_some _ _ _ _ _ _ h).2.2 with ⟨rfl, rfl⟩ | ⟨_, _, hm1, _⟩
      · rcases hp with rfl | hp
        · rfl
        · exact ih _ _ (by rw [place_multiple_bins]; exact hm) p hp
      · rw [hm] at hm1; cases hm1

/-- The items that a call on a freshly constructed bin places in one and the same bin have a
total area of at most the area of the bin. -/
theorem placed_area_per_bin (W H : Int) (multiple_bins : Bool) (items : List Rect)
    (hW : 0 ≤ W) (hH : 0 ≤ H) (hpos : ∀ r ∈ items, 0 ≤ r.w ∧ 0 ≤ r.h) (k : Int) :
    total_area ((Bin.placed_loop (Bin.new W H multiple_bins) 0 items).filter
      (fun p => decide (p.bin = k))) ≤ W * H := by
  have hpair := placed_loop_no_overlap items (Bin.new W H multiple_bins) 0 []
    List.Pairwise.nil (by simp) (by simp)
  rw [List.nil_append] at hpair
  apply total_area_le _ W H hW hH
  · refine List.Pairwise.imp_of_mem ?_ (List.Pairwise.sublist (List.filter_sublist _) hpair)
    intro p q hp hq hR
    rw [List.mem_filter, decide_eq_true_eq] at hp hq
    exact hR (by rw [hp.2, hq.2])
  · intro r hr
    rw [List.mem_filter] at hr
    obtain ⟨r0, hr0, e1, e2⟩ := placed_loop_sizes items _ _ r hr.1
    have := hpos r0 hr0
    rw [e1, e2]
    exact this
  · intro r hr
    rw [List.mem_filter] at hr
    exact placed_loop_within items (Bin.new W H multiple_bins) 0 (new_free_within W H _) r hr.1

/-- C12 (exhaustion in single-bin mode).  On a freshly constructed `W` by `H` bin with
positive `W` and `H`, for items of positive `w` and `h`: in single-bin mode the summed area
of the placed items never exceeds `W * H`, so when the summed area `w * h` of all the items
exceeds `W * H`, `processed_rectangles()` after `layout_bulk` is strictly less than the
number of items; and in either mode the items placed with one and the same bin index have a
summed area of at most `W * H`. -/
theorem single_bin_exhaustion (W H : Int) (items : List Rect) (hW : 0 < W) (hH : 0 < H)
    (hpos : ∀ r ∈ items, 0 < r.w ∧ 0 < r.h) :
    total_area ((Bin.new W H false).layout_bulk items).placed ≤ W * H ∧
    (W * H < total_area items →
      ((Bin.new W H false).layout_bulk items).bin.processed_rectangles < items.length) ∧
    ∀ (multiple_bins : Bool) (k : Int),
      total_area (((Bin.new W H multiple_bins).layout_bulk items).placed.filter
        (fun p => decide (p.bin = k))) ≤ W * H := by
  have hnn : ∀ r ∈ items, 0 ≤ r.w ∧ 0 ≤ r.h := fun r hr =>
    ⟨le_of_lt (hpos r hr).1, le_of_lt (hpos r hr).2⟩
  have hper := fun m k => placed_area_per_bin W H m items (le_of_lt hW) (le_of_lt hH) hnn k
  have hall : (Bin.placed_loop (Bin.new W H false) 0 items).filter
      (fun p => decide (p.bin = 0)) = Bin.placed_loop (Bin.new W H false) 0 items := by
    rw [List.filter_eq_self]
    intro p hp
    rw [decide_eq_true_eq]
    exact single_placed_loop_bin items _ 0 rfl p hp
  have hsingle := hper false 0
  rw [hall] at hsingle
  refine ⟨?_, ?_, ?_⟩
  · rw [layout_bulk_placed _ _ rfl]
    exact hsingle
  · intro hsum
    rw [layout_bulk_processed _ _ rfl]
    have hle := placed_loop_length_le items (Bin.new W H false) 0
    rcases Nat.lt_or_ge (Bin.placed_loop (Bin.new W H false) 0 items).length items.length with
      hlt | hge
    · exact_mod_cast hlt
    · exfalso
      rw [placed_loop_total_area, List.take_of_length_le hge] at hsingle
      omega
  · intro m k
    rw [layout_bulk_placed _ _ rfl]
    exact hper m k

/-- C12 at the 4 by 4 single bin with three 3x3 items (total area 27 above 16): fewer than
three are processed. -/
theorem single_bin_exhaustion_witness :
    (0 : Int) < 4 ∧
    (∀ r ∈ ([{ code_point := 1, w := 3, h := 3 }, { code_point := 2, w := 3, h := 3 },
        { code_point := 3, w := 3, h := 3 }] : List Rect), 0 < r.w ∧ 0 < r.h) ∧
    (4 : Int) * 4 < total_area
      [{ code_point := 1, w := 3, h := 3 }, { code_point := 2, w := 3, h := 3 },
        { code_point := 3, w := 3, h := 3 }] ∧
    ((Bin.new 4 4 false).layout_bulk
        [{ code_point := 1, w := 3, h := 3 }, { code_point := 2, w := 3, h := 3 },
          { code_point := 3, w := 3, h := 3 }]).bin.processed_rectangles <
      ([{ code_point := 1, w := 3, h := 3 }, { code_point := 2, w := 3, h := 3 },
        { code_point := 3, w := 3, h := 3 }] : List Rect).length :=
  ⟨by decide, by decide, by decide,
    (single_bin_exhaustion 4 4
      [{ code_point := 1, w := 3, h := 3 }, { code_point := 2, w := 3, h := 3 },
        { code_point := 3, w := 3, h := 3 }] (by decide) (by decide) (by decide)).2.1
      (by decide)⟩

/-! ## Properties of the free list that every call keeps -/

/-- A property of the packer that every placement and `reset` keep is kept by the loop of
`layout_bulk`, however the loop ends. -/
theorem layout_loop_preserves (Q : Bin → Prop) (hplace : ∀ (b : Bin) (r : Rect), Q b → Q (b.place r))
    (hreset : ∀ b : Bin, Q b → Q b.reset) (items : List Rect) :
    ∀ (b : Bin) (bi : Int), Q b → Q (Bin.layout_loop b bi items).bin := by
  induction items with
  | nil => intro b bi hb; exact hb
  | cons r rest ih =>
    intro b bi hb
    cases h : b.choose bi r with
    | none =>
      rw [layout_loop_cons_none _ _ _ _ h]
      cases b.m_multiple_bins
      · exact hb
      · exact hreset b hb
    | some c =>
      obtain ⟨it, b1, bi1⟩ := c
      rw [layout_loop_cons_some _ _ _ _ _ _ _ h]
      apply ih
      apply hplace
      rcases (choose_some _ _ _ _ _ _ h).2.2 with ⟨rfl, _⟩ | ⟨rfl, _⟩
      · exact hb
      · exact hreset b hb

/-- A property of the packer that every placement and `reset` keep holds after every sequence
of `layout_bulk` and `reset` calls. -/
theorem calls_preserve (Q : Bin → Prop) (hplace : ∀ (b : Bin) (r : Rect), Q b → Q (b.place r))
    (hreset : ∀ b : Bin, Q b → Q b.reset) (calls : List Call) :
    ∀ b : Bin, Q b → Q (b.calls calls) := by
  induction calls with
  | nil => intro b hb; exact hb
  | cons c rest ih =>
    intro b hb
    apply ih
    cases c with
    | layout_bulk container => exact layout_loop_preserves Q hplace hreset container b 0 hb
    | reset => exact hreset b hb

theorem place_free_proper (b : Bin) (r : Rect) (hb : b.free_proper) : (b.place r).free_proper := by
  intro f hf
  rw [place_width, place_height]
  rcases place_free_mem b r f hf with ⟨h1, _⟩ | ⟨g, hg, hov, hmem⟩
  · exact hb f h1
  · obtain ⟨h1, _, h3, h4⟩ := compute_new_mem g r f hov hmem
    exact ⟨h3, h4, within_of_inside g f _ _ (hb g hg).2.2 h1⟩

theorem reset_free_proper (b : Bin) (hW : 0 < b.m_width) (hH : 0 < b.m_height) :
    b.reset.free_proper := by
  intro f hf
  simp only [Bin.reset, List.mem_singleton] at hf
  subst hf
  simp only [Rect.within, Bin.reset]
  omega

theorem prune_against_old_sublist (old : List Rect) :
    ∀ l : List Rect, (Bin.prune_against_old old l).Sublist l := by
  induction old with
  | nil => intro l; exact List.Sublist.refl l
  | cons o rest ih =>
    intro l
    simp only [Bin.prune_against_old]
    exact (ih _).trans (List.filter_sublist _)

theorem prune_against_old_not_inside (old : List Rect) :
    ∀ (l : List Rect) (c : Rect), c ∈ Bin.prune_against_old old l →
      ∀ o ∈ old, Bin.inside o c = false := by
  induction old with
  | nil => intro l c _ o ho; cases ho
  | cons o1 rest ih =>
    intro l c hc o ho
    simp only [Bin.prune_against_old] at hc
    rcases List.mem_cons.1 ho with rfl | ho
    · have := (prune_against_old_sublist rest _).subset hc
      rw [List.mem_filter] at this
      simpa using this.2
    · exact ih _ c hc o ho

/-- The new-vs-new loop leaves no rectangle inside another one. -/
theorem prune_new_loop_no_nesting (fuel : Nat) :
    ∀ (before todo : List Rect), todo.length ≤ fuel → Bin.no_nesting before →
      (∀ a ∈ before, ∀ t ∈ todo, Bin.inside a t = false) →
      Bin.no_nesting (Bin.prune_new_loop fuel before todo) := by
  induction fuel with
  | zero =>
    intro before todo h hb _
    have hnil : todo = [] := List.length_eq_zero.1 (by omega)
    subst hnil
    simpa [Bin.prune_new_loop] using hb
  | succ k ih =>
    intro before todo h hb hbt
    cases todo with
    | nil => simpa [Bin.prune_new_loop] using hb
    | cons cur rest =>
      simp only [Bin.prune_new_loop]
      simp only [List.length_cons] at h
      apply ih
      · exact le_trans (List.length_filter_le _ _) (by omega)
      · unfold Bin.no_nesting at hb ⊢
        rw [List.pairwise_append]
        refine ⟨hb.sublist (List.filter_sublist _), List.pairwise_singleton _ _, ?_⟩
        intro a ha c hc
        rw [List.mem_singleton] at hc
        subst hc
        rw [List.mem_filter] at ha
        exact ⟨hbt a ha.1 c (List.mem_cons_self _ _), by simpa using ha.2⟩
      · intro a ha t ht
        rw [List.mem_filter] at ht
        rcases List.mem_append.1 ha with ha | ha
        · exact hbt a (List.mem_filter.1 ha).1 t (List.mem_cons_of_mem _ ht.1)
        · rw [List.mem_singleton] at ha
          subst ha
          simpa using ht.2

theorem prune_new_no_nesting (l : List Rect) : Bin.no_nesting (Bin.prune_new l) :=
  prune_new_loop_no_nesting l.length [] l (le_refl _) List.Pairwise.nil
    (fun a ha => by cases ha)

/-- A placement keeps the free list free of nesting. -/
theorem place_no_nesting (b : Bin) (r : Rect) (hb : Bin.no_nesting b.m_free_rectangles) :
    Bin.no_nesting (b.place r).m_free_rectangles := by
  unfold Bin.place
  simp only
  unfold Bin.no_nesting at hb ⊢
  rw [List.pairwise_append]
  refine ⟨?_, ?_, ?_⟩
  · rw [split_free_fst]
    exact hb.sublist (List.filter_sublist _)
  · exact (prune_new_no_nesting _).sublist (prune_against_old_sublist _ _)
  · intro a ha c hc
    refine ⟨prune_against_old_not_inside _ _ c hc a ha, ?_⟩
    by_contra hin
    rw [Bool.not_eq_false] at hin
    rw [split_free_fst, List.mem_filter] at ha
    obtain ⟨F, hF, hov, hcF⟩ := split_free_snd_mem r _ c
      (prune_new_subset _ _ (prune_against_old_subset _ _ _ hc))
    have hFa : Bin.inside F a = true :=
      inside_trans F c a (compute_new_mem F r c hov hcF).1 hin
    have hne : F ≠ a := by
      intro e
      rw [e] at hov
      have := ha.2
      rw [hov] at this
      exact absurd this (by decide)
    have hsymm : Symmetric (fun a c : Rect => Bin.inside a c = false ∧ Bin.inside c a = false) :=
      fun _ _ h => ⟨h.2, h.1⟩
    have := (hb.forall hsymm hF ha.1 hne).1
    rw [hFa] at this
    exact absurd this (by decide)

theorem reset_no_nesting (b : Bin) : Bin.no_nesting b.reset.m_free_rectangles := by
  unfold Bin.no_nesting Bin.reset
  exact List.pairwise_singleton _ _

theorem calls_no_nesting (W H : Int) (multiple_bins : Bool) (calls : List Call) :
    Bin.no_nesting ((Bin.new W H multiple_bins).calls calls).m_free_rectangles :=
  calls_preserve (fun b => Bin.no_nesting b.m_free_rectangles) place_no_nesting
    (fun b _ => reset_no_nesting b) calls (Bin.new W H multiple_bins)
    (List.pairwise_singleton _ _)

theorem no_nesting_getElem? (l : List Rect) (hl : Bin.no_nesting l) (i j : Nat) (a c : Rect)
    (hij : i ≠ j) (ha : l[i]? = some a) (hc : l[j]? = some c) :
    Bin.inside a c = false ∧ Bin.inside c a = false :=
  pairwise_getElem? _ (fun _ _ h => ⟨h.2, h.1⟩) l hl i j a c hij ha hc

/-! ## The free list after cleanup -/

/-- C21 (pruning leaves no nested free regions).  In every state that a sequence of
`layout_bulk` and `reset` calls on a freshly constructed bin leaves, in particular after the
cleanup of every placement made from a fresh or a reset packer, no region of the free list
lies inside (`Bin::inside`) a region at another position of the list; in particular the list
holds no two equal regions.  This holds for every bin size and for all items, in particular
for items of positive size. -/
theorem free_regions_not_nested (W H : Int) (multiple_bins : Bool) (calls : List Call)
    (i j : Nat) (a c : Rect) (hij : i ≠ j)
    (ha : ((Bin.new W H multiple_bins).calls calls).m_free_rectangles[i]? = some a)
    (hc : ((Bin.new W H multiple_bins).calls calls).m_free_rectangles[j]? = some c) :
    Bin.inside a c = false ∧ a ≠ c := by
  have h := no_nesting_getElem? _ (calls_no_nesting W H multiple_bins calls) i j a c hij ha hc
  refine ⟨h.1, ?_⟩
  intro e
  rw [e, inside_refl] at h
  exact absurd h.1 (by decide)

/-- C21 at the 10 by 10 single bin after a call with a 5x5 item: the free regions (0,5,10,5)
and (5,0,5,10) are not nested. -/
theorem free_regions_not_nested_witness :
    ((Bin.new 10 10 false).calls
        [Call.layout_bulk [{ code_point := 1, w := 5, h := 5 }]]).m_free_rectangles[0]? =
      some { x := 0, y := 5, w := 10, h := 5 } ∧
    ((Bin.new 10 10 false).calls
        [Call.layout_bulk [{ code_point := 1, w := 5, h := 5 }]]).m_free_rectangles[1]? =
      some { x := 5, y := 0, w := 5, h := 10 } ∧
    (Bin.inside { x := 0, y := 5, w := 10, h := 5 } { x := 5, y := 0, w := 5, h := 10 } = false ∧
      ({ x := 0, y := 5, w := 10, h := 5 } : Rect) ≠ { x := 5, y := 0, w := 5, h := 10 }) :=
  ⟨by decide, by decide,
    free_regions_not_nested 10 10 false [Call.layout_bulk [{ code_point := 1, w := 5, h := 5 }]]
      0 1 { x := 0, y := 5, w := 10, h := 5 } { x := 5, y := 0, w := 5, h := 10 } (by decide)
      (by decide) (by decide)⟩

/-- C22 (free regions are non-degenerate and within the bin).  For a bin constructed with
positive `W` and `H`, after every sequence of `layout_bulk` and `reset` calls, every region of
the free list has `w > 0` and `h > 0` and lies within the bin: `x >= 0`, `y >= 0`,
`x + w <= W`, `y + h <= H`. -/
theorem free_regions_proper (W H : Int) (multiple_bins : Bool) (calls : List Call)
    (hW : 0 < W) (hH : 0 < H) (f : Rect)
    (hf : f ∈ ((Bin.new W H multiple_bins).calls calls).m_free_rectangles) :
    0 < f.w ∧ 0 < f.h ∧ 0 ≤ f.x ∧ 0 ≤ f.y ∧ f.x + f.w ≤ W ∧ f.y + f.h ≤ H := by
  have h := calls_preserve
    (fun b => b.m_width = W ∧ b.m_height = H ∧ b.free_proper)
    (fun b r hb => ⟨hb.1, hb.2.1, place_free_proper b r hb.2.2⟩)
    (fun b hb => ⟨hb.1, hb.2.1,
      reset_free_proper b (by rw [hb.1]; exact hW) (by rw [hb.2.1]; exact hH)⟩)
    calls (Bin.new W H multiple_bins)
    ⟨rfl, rfl, by
      intro g hg
      simp only [Bin.new, List.mem_singleton] at hg
      subst hg
      simp only [Rect.within, Bin.new]
      omega⟩
  obtain ⟨h1, h2, h3⟩ := h
  have := h3 f hf
  rw [h1, h2] at this
  exact this

/-- C22 at the 10 by 10 single bin after a call with a 6x6 item, a `reset`, and a call with a
5x5 item: the free region (5,0,5,10) is non-degenerate and within the bin. -/
theorem free_regions_proper_witness :
    (0 : Int) < 10 ∧
    ({ x := 5, y := 0, w := 5, h := 10 } : Rect) ∈
      ((Bin.new 10 10 false).calls
        [Call.layout_bulk [{ code_point := 1, w := 6, h := 6 }], Call.reset,
          Call.layout_bulk [{ code_point := 2, w := 5, h := 5 }]]).m_free_rectangles ∧
    ((0 : Int) < 5 ∧ (0 : Int) < 10 ∧ (0 : Int) ≤ 5 ∧ (0 : Int) ≤ 0 ∧ (5 : Int) + 5 ≤ 10 ∧
      (0 : Int) + 10 ≤ 10) :=
  ⟨by decide, by decide,
    free_regions_proper 10 10 false
      [Call.layout_bulk [{ code_point := 1, w := 6, h := 6 }], Call.reset,
        Call.layout_bulk [{ code_point := 2, w := 5, h := 5 }]] (by decide) (by decide)
      { x := 5, y := 0, w := 5, h := 10 } (by decide)⟩

/-- C23, as stated, fails: right after the cleanup of the first placement in a 10 by 10 bin,
that of a 5x5 item, the free list is (0,5,10,5), (5,0,5,10), and these two regions overlap
(they share the square from (5,5) to (9,9)). -/
theorem free_regions_overlap_after_cleanup :
    ((Bin.new 10 10 false).layout_bulk
        [{ code_point := 1, w := 5, h := 5 }]).bin.m_free_rectangles =
      [{ x := 0, y := 5, w := 10, h := 5 }, { x := 5, y := 0, w := 5, h := 10 }] ∧
    ((Bin.new 10 10 false).layout_bulk [{ code_point := 1, w := 5, h := 5 }]).thrown = none ∧
    ((Bin.new 10 10 false).layout_bulk
        [{ code_point := 1, w := 5, h := 5 }]).bin.processed_rectangles = 1 ∧
    Bin.overlaps { x := 0, y := 5, w := 10, h := 5 } { x := 5, y := 0, w := 5, h := 10 } = true ∧
    Rect.has_cell { x := 0, y := 5, w := 10, h := 5 } 7 7 ∧
    Rect.has_cell { x := 5, y := 0, w := 5, h := 10 } 7 7 := by
  decide

/-- C23, amended.  Right after the cleanup of a placement (split, both pruning passes, merge)
the regions of the free list may overlap one another, but they are not nested: for every two
regions at different positions of the free list that a call of `layout_bulk` on a freshly
constructed bin leaves, neither lies inside the other (`Bin::inside` is false both ways). -/
theorem free_regions_pairwise_not_nested (W H : Int) (multiple_bins : Bool)
    (items : List Rect) (i j : Nat) (a c : Rect) (hij : i ≠ j)
    (ha : ((Bin.new W H multiple_bins).layout_bulk items).bin.m_free_rectangles[i]? = some a)
    (hc : ((Bin.new W H multiple_bins).layout_bulk items).bin.m_free_rectangles[j]? = some c) :
    Bin.inside a c = false ∧ Bin.inside c a = false :=
  no_nesting_getElem? _
    (layout_loop_preserves (fun b => Bin.no_nesting b.m_free_rectangles) place_no_nesting
      (fun b _ => reset_no_nesting b) items (Bin.new W H multiple_bins) 0
      (List.pairwise_singleton _ _)) i j a c hij ha hc

/-- C23 (amended) at the 10 by 10 single bin after a 5x5 item: the two free regions, which
overlap, are not nested. -/
theorem free_regions_pairwise_not_nested_witness :
    ((Bin.new 10 10 false).layout_bulk
        [{ code_point := 1, w := 5, h := 5 }]).bin.m_free_rectangles[0]? =
      some { x := 0, y := 5, w := 10, h := 5 } ∧
    ((Bin.new 10 10 false).layout_bulk
        [{ code_point := 1, w := 5, h := 5 }]).bin.m_free_rectangles[1]? =
      some { x := 5, y := 0, w := 5, h := 10 } ∧
    (Bin.inside { x := 0, y := 5, w := 10, h := 5 } { x := 5, y := 0, w := 5, h := 10 } = false ∧
      Bin.inside { x := 5, y := 0, w := 5, h := 10 } { x := 0, y := 5, w := 10, h := 5 } =
        false) :=
  ⟨by decide, by decide,
    free_regions_pairwise_not_nested 10 10 false [{ code_point := 1, w := 5, h := 5 }] 0 1
      { x := 0, y := 5, w := 10, h := 5 } { x := 5, y := 0, w := 5, h := 10 } (by decide)
      (by decide) (by decide)⟩

/-! ## The surrounding tool -/

theorem to_size_t_of_range (n : Int) (h0 : 0 ≤ n) (h1 : n ≤ INT_MAX) :
    (to_size_t n : Int) = n := by
  unfold to_size_t
  unfold INT_MAX at h1
  omega

/-- The arithmetic of C25: inside a square of side `S`, the offset of a pixel of a rectangle
that lies within the square is an offset into a buffer of `S * S` bytes. -/
theorem offset_in_bounds (S : Int) (p : Rect) (hp : p.within S S) (row col : Int)
    (hrow0 : 0 ≤ row) (hrow : row < p.h) (hcol0 : 0 ≤ col) (hcol : col < p.w) :
    0 ≤ S * (p.y + row) + p.x + col ∧ S * (p.y + row) + p.x + col < S * S := by
  unfold Rect.within at hp
  have hS : 0 ≤ S := by omega
  have h1 : 0 ≤ S * (p.y + row) := mul_nonneg hS (by omega)
  have h2 : S * (p.y + row) ≤ S * (S - 1) := mul_le_mul_of_nonneg_left (by omega) hS
  have h3 : S * (S - 1) = S * S - S := by ring
  constructor <;> omega

theorem mem_place_pixel_data (S : Int) (p : Rect) (idx : Int)
    (h : idx ∈ place_pixel_data S p p.w) :
    ∃ row col : Nat, (row : Int) < p.h ∧ col < to_size_t p.w ∧
      idx = wrap_int (wrap_int (S * p.y) + p.x) + (row : Int) * S + (col : Int) := by
  unfold place_pixel_data at h
  rw [List.mem_flatMap] at h
  obtain ⟨row, hrow, h⟩ := h
  rw [List.mem_map] at h
  obtain ⟨col, hcol, h⟩ := h
  rw [List.mem_range] at hrow hcol
  exact ⟨row, col, by omega, hcol, h.symm⟩

theorem place_pixel_data_of_offset (S : Int) (p : Rect) (row col : Int) (hrow0 : 0 ≤ row)
    (hrow : row < p.h) (hcol0 : 0 ≤ col) (hcol : col < (to_size_t p.w : Int)) :
    wrap_int (wrap_int (S * p.y) + p.x) + row * S + col ∈ place_pixel_data S p p.w := by
  unfold place_pixel_data
  rw [List.mem_flatMap]
  refine ⟨row.toNat, List.mem_range.2 (by omega), ?_⟩
  rw [List.mem_map]
  refine ⟨col.toNat, List.mem_range.2 (by omega), ?_⟩
  simp only [Int.ofNat_eq_coe]
  rw [Int.toNat_of_nonneg hrow0, Int.toNat_of_nonneg hcol0]

/-- C25, as stated, fails for a side whose square is not an `int`.  With `-image-size 65536`
the product `image_size * image_size` wraps to 0, so the atlas buffer has 0 bytes; the 1x1
glyph placed at (0,0) is copied to offset 0, outside it.  And the 1x1 glyph that lands at
(0,32768) below a 65536x32768 glyph is copied to the wrapped offset -2147483648. -/
theorem place_pixel_data_outside_atlas :
    atlas_size 65536 = 0 ∧
    ((Bin.new 65536 65536 false).layout_bulk [{ code_point := 65, w := 1, h := 1 }]).placed =
      [{ code_point := 65, x := 0, y := 0, w := 1, h := 1, bin := 0 }] ∧
    place_pixel_data 65536 { code_point := 65, x := 0, y := 0, w := 1, h := 1, bin := 0 } 1 =
      [0] ∧
    ¬ ((0 : Int) < (atlas_size 65536 : Int)) ∧
    ((Bin.new 65536 65536 false).layout_bulk
        [{ code_point := 65, w := 65536, h := 32768 },
          { code_point := 66, w := 1, h := 1 }]).placed =
      [{ code_point := 65, x := 0, y := 0, w := 65536, h := 32768, bin := 0 },
        { code_point := 66, x := 0, y := 32768, w := 1, h := 1, bin := 0 }] ∧
    place_pixel_data 65536 { code_point := 66, x := 0, y := 32768, w := 1, h := 1, bin := 0 }
        1 = [-2147483648] ∧
    ¬ ((0 : Int) ≤ -2147483648) := by
  decide

/-- C25, amended to sides whose square is an `int`.  For a square bin of side `S` with
`S * S <= INT_MAX` and an item of positive width and height placed by `layout_bulk` on a freshly
constructed bin: the atlas buffer has `S * S` bytes, the offsets that `place_pixel_data`
writes with pitch `w` are exactly the values `S * (y + row) + x + col` with `0 <= row < h`
and `0 <= col < w`, and every one of them satisfies `0 <= offset < S * S`, that is, lies
inside the atlas buffer. -/
theorem place_pixel_data_in_bounds (S : Int) (multiple_bins : Bool) (items : List Rect)
    (hSS : S * S ≤ INT_MAX) (p : Rect)
    (hp : p ∈ ((Bin.new S S multiple_bins).layout_bulk items).placed) (hw : 0 < p.w)
    (hh : 0 < p.h) :
    (atlas_size S : Int) = S * S ∧
    (∀ idx : Int, idx ∈ place_pixel_data S p p.w ↔
      ∃ row col : Int, 0 ≤ row ∧ row < p.h ∧ 0 ≤ col ∧ col < p.w ∧
        idx = S * (p.y + row) + p.x + col) ∧
    ∀ idx ∈ place_pixel_data S p p.w, 0 ≤ idx ∧ idx < (atlas_size S : Int) := by
  rw [layout_bulk_placed _ _ rfl] at hp
  have hin : p.within S S :=
    placed_loop_within items (Bin.new S S multiple_bins) 0 (new_free_within S S _) p hp
  have hwithin := hin
  unfold Rect.within at hwithin
  have hS1 : 1 ≤ S := by omega
  have hSle : S ≤ S * S := by nlinarith
  have hpitch : (to_size_t p.w : Int) = p.w := to_size_t_of_range p.w (by omega) (by omega)
  have hy0 : 0 ≤ S * p.y := mul_nonneg (by omega) (by omega)
  have hy1 : S * p.y ≤ S * (S - 1) := mul_le_mul_of_nonneg_left (by omega) (by omega)
  have hy2 : S * (S - 1) = S * S - S := by ring
  have hstart : wrap_int (wrap_int (S * p.y) + p.x) = S * p.y + p.x := by
    unfold INT_MAX at hSS
    rw [wrap_int_of_range (S * p.y) (by omega) (by omega),
      wrap_int_of_range _ (by omega) (by omega)]
  have hsize : (atlas_size S : Int) = S * S := by
    unfold atlas_size
    unfold INT_MAX at hSS
    rw [wrap_int_of_range (S * S) (by omega) (by omega)]
    exact to_size_t_of_range (S * S) (by omega) hSS
  have hiff : ∀ idx : Int, idx ∈ place_pixel_data S p p.w ↔
      ∃ row col : Int, 0 ≤ row ∧ row < p.h ∧ 0 ≤ col ∧ col < p.w ∧
        idx = S * (p.y + row) + p.x + col := by
    intro idx
    constructor
    · intro hidx
      obtain ⟨row, col, hrow, hcol, hidx⟩ := mem_place_pixel_data S p idx hidx
      refine ⟨row, col, by omega, hrow, by omega, by omega, ?_⟩
      rw [hidx, hstart]; ring
    · rintro ⟨row, col, hrow0, hrow, hcol0, hcol, rfl⟩
      have := place_pixel_data_of_offset S p row col hrow0 hrow hcol0 (by omega)
      rw [hstart] at this
      have e : S * (p.y + row) + p.x + col = S * p.y + p.x + row * S + col := by ring
      rw [e]
      exact this
  refine ⟨hsize, hiff, ?_⟩
  intro idx hidx
  obtain ⟨row, col, hrow0, hrow, hcol0, hcol, rfl⟩ := (hiff idx).1 hidx
  rw [hsize]
  exact offset_in_bounds S p hin row col hrow0 hrow hcol0 hcol

/-- C25 (amended) at the 10 by 10 single bin with the items 6x6, 6x4, 4x6: the third glyph
sits at (6,0), and the offset 59 of its last pixel (row 5, column 3) is written and lies
inside the 100 bytes of the atlas. -/
theorem place_pixel_data_in_bounds_witness :
    (10 : Int) * 10 ≤ INT_MAX ∧
    ({ code_point := 3, x := 6, y := 0, w := 4, h := 6, bin := 0 } : Rect) ∈
      ((Bin.new 10 10 false).layout_bulk
        [{ code_point := 1, w := 6, h := 6 }, { code_point := 2, w := 6, h := 4 },
          { code_point := 3, w := 4, h := 6 }]).placed ∧
    (0 : Int) < 4 ∧ (0 : Int) < 6 ∧
    (59 : Int) ∈ place_pixel_data 10
      { code_point := 3, x := 6, y := 0, w := 4, h := 6, bin := 0 } 4 ∧
    ((0 : Int) ≤ 59 ∧ (59 : Int) < (atlas_size 10 : Int)) :=
  ⟨by decide, by decide, by decide, by decide, by decide,
    (place_pixel_data_in_bounds 10 false
      [{ code_point := 1, w := 6, h := 6 }, { code_point := 2, w := 6, h := 4 },
        { code_point := 3, w := 4, h := 6 }] (by decide)
      { code_point := 3, x := 6, y := 0, w := 4, h := 6, bin := 0 } (by decide)
      (by decide) (by decide)).2.2 59 (by decide)⟩

end Fontaine
